import Mathlib

/-!
Verification of the duckdb-mongo extension against its natural-language
specification.  The definitions below are shallow embeddings of the C++
sources under `src/`:

* `src/mongo_schema_inference.cpp` — JSON normalization, type inference,
  type-conflict resolution, schema inference, document materialization;
* `src/mongo_filter_pushdown.cpp` and the filter converter duplicated in
  `src/mongo_table_function.cpp` — pushed-down filter translation;
* `src/mongo_optimizer.cpp` — the TopN-over-scan pipeline rewrite;
* `src/mongo_table_function.cpp` — the scan's `next()` step.

C++ `std::string` is modelled as Lean `String`, machine integers as `Int`
(no overflow is exercised by any claim), and BSON documents as ordered
key/value lists.  IEEE doubles are never computed with by the code paths
under verification, so double payloads are carried opaquely as `Int` tags.
-/

namespace DuckMongo

mutual
/-- DuckDB logical types, as used by the extension
    (`LogicalType` restricted to the constructors the source manipulates).
    `other` carries the `LogicalTypeId` name for types the extension only
    passes through.  STRUCT/MAP children are a mutually defined field list
    (`LFields`) so that decidable equality can be derived. -/
inductive LType where
  | varchar
  | bigint
  | integer
  | smallint
  | tinyint
  | hugeint
  | double
  | float
  | boolean
  | date
  | timestamp
  | timestampTz
  | blob
  | list (child : LType)
  | struct (fields : LFields)
  | map (fields : LFields)
  | other (name : String)
deriving Repr

/-- Named child types of a STRUCT/MAP (C++ `child_list_t<LogicalType>`). -/
inductive LFields where
  | nil
  | cons (name : String) (ty : LType) (rest : LFields)
deriving Repr
end

deriving instance DecidableEq for LType

/-- View of `LFields` as an ordinary list of name/type pairs. -/
def LFields.toList : LFields → List (String × LType)
  | .nil => []
  | .cons n t rest => (n, t) :: rest.toList

/-- Build `LFields` from a list of name/type pairs. -/
def LFields.ofList : List (String × LType) → LFields
  | [] => .nil
  | (n, t) :: rest => .cons n t (LFields.ofList rest)

namespace LType

/-- `LogicalType::id()` comparison: true when the type is a LIST. -/
def isList : LType → Bool
  | .list _ => true
  | _ => false

/-- `LogicalType::id()` comparison: true when the type is a STRUCT. -/
def isStruct : LType → Bool
  | .struct _ => true
  | _ => false

end LType

/-- `ListType::GetChildType` (child of a LIST type; callers only apply it to
    LIST types, mirrored by an identity default that those calls never hit). -/
def listChildType : LType → LType
  | .list c => c
  | t => t

/-- The nesting-depth loop that appears in `ResolveTypeConflict` and in
    `GetListTypeDepth` (src/mongo_schema_inference.cpp:581-589):
    count how many LIST wrappers the type has. -/
def getListTypeDepth : LType → Nat
  | .list c => getListTypeDepth c + 1
  | _ => 0

/-- `ResolveTypeConflict` (src/mongo_schema_inference.cpp:209-346):
    pick one winning type from the sampled types of one field. -/
def resolveTypeConflict (types : List LType) : LType :=
  match types with
  | [] => .varchar
  | t0 :: rest =>
    if rest.all (fun t => t == t0) then
      t0
    else
      let types := t0 :: rest
      let listTypes := types.filter (fun t => t.isList)
      match listTypes.foldl
          (fun (best : Option (LType × Nat)) t =>
            let d := getListTypeDepth t
            match best with
            | none => if d > 0 then some (t, d) else none
            | some (bt, bd) => if d > bd then some (t, d) else some (bt, bd))
          none with
      | some (deepest, _) => deepest
      | none =>
        match types.find? (fun t => t.isList) with
        | some t => t
        | none =>
          match types.find? (fun t => t.isStruct) with
          | some t => t
          | none =>
            let doubleCount := (types.filter (fun t => t == LType.double)).length
            let bigintCount := (types.filter (fun t => t == LType.bigint)).length
            let varcharCount := (types.filter (fun t => t == LType.varchar)).length
            let booleanCount := (types.filter (fun t => t == LType.boolean)).length
            let timestampCount := (types.filter (fun t => t == LType.timestamp)).length
            let totalCount := types.length
            if varcharCount > totalCount * 7 / 10 then .varchar
            else if doubleCount > 0 ∧ doubleCount ≥ totalCount * 3 / 10 then .double
            else if bigintCount > 0 ∧ bigintCount ≥ totalCount * 3 / 10 then .bigint
            else if booleanCount ≥ totalCount * 7 / 10 then .boolean
            else if timestampCount ≥ totalCount * 7 / 10 then .timestamp
            else if doubleCount > 0 then .double
            else if bigintCount > 0 then .bigint
            else if booleanCount > 0 then .boolean
            else if timestampCount > 0 then .timestamp
            else .varchar

/-! ### C3 — the `resolve(samples)` frequency rules -/

/-- The frequency-weighted rules exactly as the specification words them for
    the no-LIST/no-STRUCT, not-all-equal case, reading "share exceeds 70%" as
    `10·count > 7·n` and "share at least 30%" as `10·count ≥ 3·n` (exact
    rational shares).  A comparison definition for the refinement claim. -/
def specFreqResolveExact (types : List LType) : LType :=
  let n := types.length
  let d := (types.filter (fun t => t == LType.double)).length
  let b := (types.filter (fun t => t == LType.bigint)).length
  let v := (types.filter (fun t => t == LType.varchar)).length
  let bo := (types.filter (fun t => t == LType.boolean)).length
  let ts := (types.filter (fun t => t == LType.timestamp)).length
  if 10 * v > 7 * n then .varchar
  else if d > 0 ∧ 10 * d ≥ 3 * n then .double
  else if b > 0 ∧ 10 * b ≥ 3 * n then .bigint
  else if 10 * bo ≥ 7 * n then .boolean
  else if 10 * ts ≥ 7 * n then .timestamp
  else if d > 0 then .double
  else if b > 0 then .bigint
  else if bo > 0 then .boolean
  else if ts > 0 then .timestamp
  else .varchar

/-- The frequency-weighted rules as the code actually implements them: the
    30%/70% thresholds on DOUBLE/BIGINT/BOOLEAN/TIMESTAMP are computed with
    truncating integer division (`count ≥ ⌊3n/10⌋`, `count ≥ ⌊7n/10⌋`); only
    the VARCHAR test (`count > ⌊7n/10⌋`) coincides with the exact 70% share. -/
def specFreqResolveAmended (types : List LType) : LType :=
  let n := types.length
  let d := (types.filter (fun t => t == LType.double)).length
  let b := (types.filter (fun t => t == LType.bigint)).length
  let v := (types.filter (fun t => t == LType.varchar)).length
  let bo := (types.filter (fun t => t == LType.boolean)).length
  let ts := (types.filter (fun t => t == LType.timestamp)).length
  if 10 * v > 7 * n then .varchar
  else if d > 0 ∧ d ≥ n * 3 / 10 then .double
  else if b > 0 ∧ b ≥ n * 3 / 10 then .bigint
  else if bo ≥ n * 7 / 10 then .boolean
  else if ts ≥ n * 7 / 10 then .timestamp
  else if d > 0 then .double
  else if b > 0 then .bigint
  else if bo > 0 then .boolean
  else if ts > 0 then .timestamp
  else .varchar

/-- C3 counterexample: on 2×DOUBLE + 5×BIGINT the exact rules of the claim
    pick BIGINT (DOUBLE's share 2/7 is below 30%), but `ResolveTypeConflict`
    compares against the truncated threshold `⌊3·7/10⌋ = 2` and picks DOUBLE. -/
theorem resolveTypeConflict_c3_counterexample :
    resolveTypeConflict
      [.double, .double, .bigint, .bigint, .bigint, .bigint, .bigint] = .double
    ∧ specFreqResolveExact
      [.double, .double, .bigint, .bigint, .bigint, .bigint, .bigint] = .bigint := by
  constructor <;> decide

/-- C3 (amended): `resolve` returns VARCHAR on an empty sample list, the
    common type on an all-equal list, and otherwise — when no LIST or STRUCT
    is present — follows the frequency cascade with the code's truncated
    thresholds (`specFreqResolveAmended`); in particular
    `resolve([BIGINT, DOUBLE]) = DOUBLE`. -/
theorem resolveTypeConflict_c3_rules :
    resolveTypeConflict [] = .varchar
    ∧ (∀ t0 : LType, ∀ rest : List LType, (∀ t ∈ rest, t = t0) →
        resolveTypeConflict (t0 :: rest) = t0)
    ∧ (∀ t0 : LType, ∀ rest : List LType,
        (∀ t ∈ t0 :: rest, t.isList = false ∧ t.isStruct = false) →
        ¬(∀ t ∈ rest, t = t0) →
        resolveTypeConflict (t0 :: rest) = specFreqResolveAmended (t0 :: rest))
    ∧ resolveTypeConflict [.bigint, .double] = .double := by
  refine ⟨rfl, ?_, ?_, by decide⟩
  · intro t0 rest h
    simp only [resolveTypeConflict]
    rw [if_pos]
    simp only [List.all_eq_true, beq_iff_eq]
    exact h
  · intro t0 rest hns hne
    have hall : ((t0 :: rest).all (fun t => t == t0)) ≠ true := by
      simp only [List.all_cons, List.all_eq_true, beq_iff_eq, beq_self_eq_true,
        Bool.true_and, ne_eq]
      intro h
      exact hne h
    have hfilter : (t0 :: rest).filter (fun t => t.isList) = [] := by
      apply List.filter_eq_nil_iff.mpr
      intro t ht
      simp [(hns t ht).1]
    have hfindL : (t0 :: rest).find? (fun t => t.isList) = none := by
      apply List.find?_eq_none.mpr
      intro t ht
      simp [(hns t ht).1]
    have hfindS : (t0 :: rest).find? (fun t => t.isStruct) = none := by
      apply List.find?_eq_none.mpr
      intro t ht
      simp [(hns t ht).2]
    have hall' : (rest.all (fun t => t == t0)) = false := by
      cases h : rest.all (fun t => t == t0)
      · rfl
      · exact absurd (by simp [List.all_cons, h]) hall
    simp only [resolveTypeConflict, hall', Bool.false_eq_true, if_false,
      hfilter, hfindL, hfindS, List.foldl_nil]
    simp only [specFreqResolveAmended]
    have hv : ((t0 :: rest).filter (fun t => t == LType.varchar)).length >
        (t0 :: rest).length * 7 / 10 ↔
        10 * ((t0 :: rest).filter (fun t => t == LType.varchar)).length >
        7 * (t0 :: rest).length := by
      omega
    by_cases h1 : 10 * ((t0 :: rest).filter (fun t => t == LType.varchar)).length >
        7 * (t0 :: rest).length
    · rw [if_pos (hv.mpr h1), if_pos h1]
    · rw [if_neg (fun hc => h1 (hv.mp hc)), if_neg h1]

/-- C3 witness: the all-equal rule on `[BIGINT, BIGINT]` and the frequency
    cascade on the mixed list `[VARCHAR, BIGINT]`. -/
theorem resolveTypeConflict_c3_rules_witness :
    resolveTypeConflict [.bigint, .bigint] = .bigint
    ∧ resolveTypeConflict [.varchar, .bigint] =
        specFreqResolveAmended [.varchar, .bigint] :=
  ⟨resolveTypeConflict_c3_rules.2.1 .bigint [.bigint] (by decide),
   resolveTypeConflict_c3_rules.2.2.1 .varchar [.bigint] (by decide) (by decide)⟩

/-! ### NormalizeJson (src/mongo_schema_inference.cpp:24-73, duplicated
    verbatim in src/schema/mongo_schema_inference_helpers.cpp:22-71) -/

/-- "Valid JSON value start" test on the character after a candidate space:
    `"`, `[`, `{`, digit, `-`, `t`, `f`, `n`. -/
def isValueStart (n : Char) : Bool :=
  n == '"' || n == '[' || n == '{' || n.isDigit || n == '-' ||
    n == 't' || n == 'f' || n == 'n'

/-- "Valid JSON value end" test on the character before a candidate space:
    `"`, `]`, `}`, digit. -/
def isValueEnd (p : Char) : Bool :=
  p == '"' || p == ']' || p == '}' || p.isDigit

/-- The two removal rules of `NormalizeJson`, on the original previous
    character `p` and original next character `n` of a space. -/
def removableSpace (p n : Char) : Bool :=
  ((p == '[' || p == ',') && isValueStart n) ||
    ((n == ']' || n == '}') && isValueEnd p)

/-- The loop of `NormalizeJson`: `inString`/`escapeNext` are the quote-state
    flags, `prevOrig` is the previous character of the *original* string
    (`json[i-1]`; `none` at position 0), and the lookahead `json[i+1]` is the
    head of the remaining list. -/
def normalizeJsonChars (inString escapeNext : Bool) (prevOrig : Option Char) :
    List Char → List Char
  | [] => []
  | c :: rest =>
    if escapeNext then c :: normalizeJsonChars inString false (some c) rest
    else if c = '\\' then c :: normalizeJsonChars inString true (some c) rest
    else if c = '"' then c :: normalizeJsonChars (!inString) false (some c) rest
    else if inString then c :: normalizeJsonChars inString false (some c) rest
    else
      match prevOrig, rest with
      | some p, n :: _ =>
        if c = ' ' ∧ removableSpace p n then
          normalizeJsonChars inString false (some c) rest
        else c :: normalizeJsonChars inString false (some c) rest
      | _, _ => c :: normalizeJsonChars inString false (some c) rest

/-- `NormalizeJson`: strip removable spaces outside string literals. -/
def normalizeJson (s : String) : String :=
  ⟨normalizeJsonChars false false none s.data⟩

/-- One step of the quote-state machine of `NormalizeJson`: the
    (inString, escapeNext) pair after consuming character `c`. -/
def jsonStep (inString escapeNext : Bool) (c : Char) : Bool × Bool :=
  if escapeNext then (inString, false)
  else if c = '\\' then (inString, true)
  else if c = '"' then (!inString, false)
  else (inString, false)

/-- The condition under which `normalizeJsonChars` deletes the head
    character instead of keeping it. -/
def dropCond (inString escapeNext : Bool) (prevOrig : Option Char) (c : Char)
    (rest : List Char) : Bool :=
  !escapeNext && !inString && (c == ' ') && (c != '\\') && (c != '"') &&
    (match prevOrig, rest with
     | some p, n :: _ => removableSpace p n
     | _, _ => false)

theorem normalizeJsonChars_cons (inS esc : Bool) (P : Option Char) (c : Char)
    (t : List Char) :
    normalizeJsonChars inS esc P (c :: t) =
      if dropCond inS esc P c t then
        normalizeJsonChars false false (some c) t
      else
        c :: normalizeJsonChars (jsonStep inS esc c).1 (jsonStep inS esc c).2
          (some c) t := by
  cases esc with
  | true => simp [normalizeJsonChars, dropCond, jsonStep]
  | false =>
    by_cases hbs : c = '\\'
    · simp [normalizeJsonChars, dropCond, jsonStep, hbs]
    · by_cases hq : c = '"'
      · simp [normalizeJsonChars, dropCond, jsonStep, hbs, hq]
      · cases inS with
        | true => simp [normalizeJsonChars, dropCond, jsonStep, hbs, hq]
        | false =>
          by_cases hsp : c = ' '
          · cases t with
            | nil =>
              cases P <;>
                simp [normalizeJsonChars, dropCond, jsonStep, hbs, hq, hsp]
            | cons n t2 =>
              cases P with
              | none =>
                simp [normalizeJsonChars, dropCond, jsonStep, hbs, hq, hsp]
              | some p =>
                by_cases hrm : removableSpace p n = true
                · simp [normalizeJsonChars, dropCond, jsonStep, hbs, hq, hsp, hrm]
                · simp [normalizeJsonChars, dropCond, jsonStep, hbs, hq, hsp, hrm]
          · cases t with
            | nil =>
              cases P <;>
                simp [normalizeJsonChars, dropCond, jsonStep, hbs, hq, hsp]
            | cons n t2 =>
              cases P <;>
                simp [normalizeJsonChars, dropCond, jsonStep, hbs, hq, hsp]

theorem removableSpace_space_left (n : Char) : removableSpace ' ' n = false := by
  have h1 : ((' ' == '[') : Bool) = false := by decide
  have h2 : ((' ' == ',') : Bool) = false := by decide
  have h3 : isValueEnd ' ' = false := by decide
  simp [removableSpace, h1, h2, h3]

theorem removableSpace_imp_ne_space {p n : Char}
    (h : removableSpace p n = true) : n ≠ ' ' := by
  intro he
  subst he
  have h1 : isValueStart ' ' = false := by decide
  have h2 : ((' ' == ']') : Bool) = false := by decide
  have h3 : ((' ' == '}') : Bool) = false := by decide
  simp [removableSpace, h1, h2, h3] at h

theorem dropCond_of_ne_space (inS esc : Bool) (P : Option Char) {c : Char}
    (t : List Char) (h : c ≠ ' ') : dropCond inS esc P c t = false := by
  simp [dropCond, h]

/-- With an original-previous character `' '`, neither removal rule can fire,
    so the head character is always kept. -/
theorem normalizeJsonChars_prev_space (inS esc : Bool) (c : Char)
    (t : List Char) :
    normalizeJsonChars inS esc (some ' ') (c :: t) =
      c :: normalizeJsonChars (jsonStep inS esc c).1 (jsonStep inS esc c).2
        (some c) t := by
  rw [normalizeJsonChars_cons, if_neg]
  simp only [dropCond]
  cases t with
  | nil => simp
  | cons n t2 => simp [removableSpace_space_left]

theorem normalizeJsonChars_idem :
    ∀ (fuel : Nat) (l : List Char), l.length ≤ fuel →
      ∀ (inS esc : Bool) (P : Option Char),
        normalizeJsonChars inS esc P (normalizeJsonChars inS esc P l) =
          normalizeJsonChars inS esc P l := by
  intro fuel
  induction fuel with
  | zero =>
    intro l hl inS esc P
    have : l = [] := List.length_eq_zero.mp (Nat.le_zero.mp hl)
    subst this
    simp [normalizeJsonChars]
  | succ m ih =>
    intro l hl inS esc P
    cases l with
    | nil => simp [normalizeJsonChars]
    | cons c t =>
      rw [normalizeJsonChars_cons inS esc P c t]
      by_cases hd : dropCond inS esc P c t = true
      · rw [if_pos hd]
        have hesc : esc = false := by
          by_contra hne
          have : esc = true := by revert hne; cases esc <;> simp
          rw [this] at hd
          simp [dropCond] at hd
        have hinS : inS = false := by
          by_contra hne
          have : inS = true := by revert hne; cases inS <;> simp
          rw [this] at hd
          simp [dropCond] at hd
        have hsp : c = ' ' := by
          by_contra hne
          rw [dropCond_of_ne_space _ _ _ _ hne] at hd
          exact Bool.false_ne_true hd
        subst hesc; subst hinS; subst hsp
        cases P with
        | none => simp [dropCond] at hd
        | some p =>
          cases t with
          | nil => simp [dropCond] at hd
          | cons n0 t2 =>
            have hrm : removableSpace p n0 = true := by
              simp only [dropCond] at hd
              revert hd
              cases h : removableSpace p n0 <;> simp
            rw [normalizeJsonChars_prev_space]
            rw [normalizeJsonChars_cons false false (some p) n0 _]
            rw [if_neg (by
              rw [dropCond_of_ne_space _ _ _ _ (removableSpace_imp_ne_space hrm)]
              exact Bool.false_ne_true)]
            have ht2 : t2.length ≤ m := by
              simp only [List.length_cons] at hl
              omega
            rw [ih t2 ht2]
      · rw [if_neg hd]
        rw [normalizeJsonChars_cons inS esc P c _]
        have hdc : dropCond inS esc P c
            (normalizeJsonChars (jsonStep inS esc c).1 (jsonStep inS esc c).2
              (some c) t) = false := by
          by_cases hsp : c = ' '
          · subst hsp
            cases hesc : esc with
            | true => simp [dropCond, hesc]
            | false =>
              cases hinS : inS with
              | true => simp [dropCond]
              | false =>
                subst hesc; subst hinS
                cases P with
                | none => simp [dropCond]
                | some p =>
                  cases t with
                  | nil => simp [normalizeJsonChars, dropCond]
                  | cons n0 t2 =>
                    have hrm : removableSpace p n0 = false := by
                      by_contra hne
                      have : removableSpace p n0 = true := by
                        revert hne; cases removableSpace p n0 <;> simp
                      apply hd
                      simp [dropCond, this]
                    have hst : jsonStep false false ' ' = (false, false) := by
                      decide
                    rw [hst]
                    rw [show ((false, false) : Bool × Bool).1 = false from rfl,
                        show ((false, false) : Bool × Bool).2 = false from rfl]
                    rw [normalizeJsonChars_prev_space]
                    simp [dropCond, hrm]
          · exact dropCond_of_ne_space _ _ _ _ hsp
        rw [if_neg (by rw [hdc]; exact Bool.false_ne_true)]
        have ht : t.length ≤ m := by
          simp only [List.length_cons] at hl
          omega
        rw [ih t ht]

/-- C9: the JSON normalizer is idempotent. -/
theorem normalizeJson_idempotent (x : String) :
    normalizeJson (normalizeJson x) = normalizeJson x := by
  show (⟨normalizeJsonChars false false none
      (normalizeJsonChars false false none x.data)⟩ : String) = _
  rw [normalizeJsonChars_idem x.data.length x.data (Nat.le_refl _)]
  rfl

/-- The erasure relation of C10: `StateErasure inS esc input output` holds
    when `output` is `input` with some characters deleted, every deleted
    character being an ASCII space at a position where the quote-state
    machine (`jsonStep`, which tracks `"` toggling across `\\` escapes) is
    outside a string literal and not in an escape; all other characters are
    kept unchanged, in their original relative order. -/
inductive StateErasure : Bool → Bool → List Char → List Char → Prop where
  | nil (inS esc : Bool) : StateErasure inS esc [] []
  | keep (inS esc inS' esc' : Bool) (c : Char) (l out : List Char) :
      jsonStep inS esc c = (inS', esc') →
      StateErasure inS' esc' l out →
      StateErasure inS esc (c :: l) (c :: out)
  | drop (l out : List Char) :
      StateErasure false false l out →
      StateErasure false false (' ' :: l) out

theorem normalizeJsonChars_erasure :
    ∀ (l : List Char) (inS esc : Bool) (P : Option Char),
      StateErasure inS esc l (normalizeJsonChars inS esc P l) := by
  intro l
  induction l with
  | nil =>
    intro inS esc P
    show StateErasure inS esc [] []
    exact .nil inS esc
  | cons c t ih =>
    intro inS esc P
    rw [normalizeJsonChars_cons]
    by_cases hd : dropCond inS esc P c t = true
    · rw [if_pos hd]
      have hesc : esc = false := by
        by_contra hne
        have : esc = true := by revert hne; cases esc <;> simp
        rw [this] at hd
        simp [dropCond] at hd
      have hinS : inS = false := by
        by_contra hne
        have : inS = true := by revert hne; cases inS <;> simp
        rw [this] at hd
        simp [dropCond] at hd
      have hsp : c = ' ' := by
        by_contra hne
        rw [dropCond_of_ne_space _ _ _ _ hne] at hd
        exact Bool.false_ne_true hd
      subst hesc; subst hinS; subst hsp
      exact .drop t _ (ih false false (some ' '))
    · rw [if_neg hd]
      exact .keep inS esc _ _ c t _ rfl (ih _ _ (some c))

/-- C10: `NormalizeJson` deletes only spaces outside double-quoted string
    literals (quote state tracked across backslash escapes); every other
    character of the input appears in the output unchanged and in order. -/
theorem normalizeJson_only_deletes_outside_spaces (x : String) :
    StateErasure false false x.data (normalizeJson x).data :=
  normalizeJsonChars_erasure x.data false false none

/-! ### BSON values, DuckDB constants, and pushed-down table filters -/

/-- BSON values (`bsoncxx` element types).  Doubles are carried as opaque
    `Int` payloads (no double arithmetic occurs in the verified code paths);
    decimal128 is carried as its string form, as the source only ever
    converts it via `to_string()`. -/
inductive BVal where
  | null
  | undefined
  | str (s : String)
  | i32 (n : Int)
  | i64 (n : Int)
  | dbl (x : Int)
  | dec128 (s : String)
  | boolean (b : Bool)
  | date (ms : Int)
  | oid (hex : String)
  | binary
  | regex (pat opts : String)
  | code (s : String)
  | codeWScope (s : String)
  | symbol (s : String)
  | tstamp (t incr : Int)
  | dbPointer
  | minKey
  | maxKey
  | arr (elems : List BVal)
  | doc (fields : List (String × BVal))
deriving Repr

/-- A BSON document: an ordered key/value list (duplicate keys allowed). -/
abbrev BDoc := List (String × BVal)

/-- DuckDB constant `Value`s appearing in pushed-down filters.  `vdate`
    carries days since epoch, `vts` microseconds since epoch (the `date_t` /
    `timestamp_t` payloads); `vother` carries `Value::ToString()` of a value
    of a type the converter does not special-case. -/
inductive DVal where
  | null
  | vstr (s : String)
  | vi64 (n : Int)
  | vi32 (n : Int)
  | vdbl (x : Int)
  | vbool (b : Bool)
  | vdate (days : Int)
  | vts (micros : Int)
  | vother (txt : String)
deriving Repr, DecidableEq

namespace DVal

/-- `Value::IsNull()`. -/
def isNull : DVal → Bool
  | .null => true
  | _ => false

/-- `Value::GetValue<string>()` (called on VARCHAR constants). -/
def getString : DVal → String
  | .vstr s => s
  | .vother s => s
  | _ => ""

/-- `Value::GetValue<int64_t>()` (called on BIGINT constants). -/
def getI64 : DVal → Int
  | .vi64 n => n
  | .vi32 n => n
  | _ => 0

/-- `Value::GetValue<int32_t>()` (called on INTEGER constants). -/
def getI32 : DVal → Int
  | .vi32 n => n
  | .vi64 n => n
  | _ => 0

/-- `Value::GetValue<double>()` (called on DOUBLE constants — the opaque
    payload). -/
def getDbl : DVal → Int
  | .vdbl x => x
  | _ => 0

/-- `Value::GetValue<bool>()`. -/
def getBool : DVal → Bool
  | .vbool b => b
  | _ => false

/-- `Value::ToString()` for the converter's default branch. -/
def toText : DVal → String
  | .null => "NULL"
  | .vstr s => s
  | .vi64 n => toString n
  | .vi32 n => toString n
  | .vdbl x => toString x
  | .vbool b => cond b "true" "false"
  | .vdate d => toString d
  | .vts t => toString t
  | .vother s => s

end DVal

/-- The DATE branch of the append helpers: rebuild the date at midnight UTC
    and take milliseconds since epoch (`Date::FromDate` + `Time::FromTime(0,0,0)`
    + `Timestamp::GetEpochMs`), i.e. days × 86 400 000. -/
def dateToEpochMs (days : Int) : Int := days * 86400000

/-- The TIMESTAMP branch: `Timestamp::GetEpochMs` of a microsecond
    timestamp. -/
def timestampToEpochMs (micros : Int) : Int := micros / 1000

/-- Comparison kinds of a `ConstantFilter`; `unsupported` stands for every
    `ExpressionType` the converter's `default:` arm rejects. -/
inductive CmpType where
  | eq
  | neq
  | lt
  | le
  | gt
  | ge
  | unsupported
deriving Repr, DecidableEq

/-- The MongoDB operator string for the non-equality comparisons. -/
def mongoOpString : CmpType → String
  | .neq => "$ne"
  | .lt => "$lt"
  | .le => "$lte"
  | .gt => "$gt"
  | .ge => "$gte"
  | _ => ""

/-- Pushed-down `TableFilter`s.  `structExtract`, `optionalFilter` and
    `dynamicFilter` only exist in the converter of
    src/mongo_filter_pushdown.cpp; the converter duplicated in
    src/mongo_table_function.cpp hits its `default:` arm on them. -/
inductive TableFilter where
  | constantComparison (cmp : CmpType) (constant : DVal)
  | inFilter (values : List DVal)
  | isNull
  | isNotNull
  | conjunctionAnd (children : List TableFilter)
  | conjunctionOr (children : List TableFilter)
  | structExtract (childName : String) (child : Option TableFilter)
  | optionalFilter (child : Option TableFilter)
  | dynamicFilter (initialized : Bool) (child : Option TableFilter)
deriving Repr

/-- `std::isxdigit`: `0`-`9`, `a`-`f`, `A`-`F`. -/
def isHexDigitChar (c : Char) : Bool :=
  c.isDigit || (decide ('a' ≤ c) && decide (c ≤ 'f')) ||
    (decide ('A' ≤ c) && decide (c ≤ 'F'))

/-- `IsValidObjectIdHex` (src/mongo_filter_pushdown.cpp:23-33): exactly 24
    characters, all hexadecimal digits. -/
def isValidObjectIdHex (s : String) : Bool :=
  s.length == 24 && s.data.all (fun c => isHexDigitChar c)

/-- `column_name.substr(column_name.size() - k) == suffix`: suffix test,
    modelled on the character list. -/
def strEndsWith (s suffix : String) : Bool :=
  suffix.data.isSuffixOf s.data

/-- `IsObjectIdColumn` (src/mongo_filter_pushdown.cpp:37-50): `_id`, names
    ending in `._id` (nested id), or names ending in `_id` (foreign-key
    pattern). -/
def isObjectIdColumn (columnName : String) : Bool :=
  if columnName == "_id" then true
  else if columnName.length > 4 && strEndsWith columnName "._id" then true
  else columnName.length > 3 && strEndsWith columnName "_id"

/-- The merge loop of the CONJUNCTION_AND arm of
    src/mongo_filter_pushdown.cpp:249-264: splice the operator pairs of a
    child document registered under the column name; append every other
    pair unchanged. -/
def andMergeKvps (columnName : String) (kvps : BDoc) : BDoc :=
  kvps.foldl
    (fun acc kv =>
      match kv with
      | (k, BVal.doc nested) =>
        if k = columnName then acc ++ nested else acc ++ [kv]
      | _ => acc ++ [kv])
    []

namespace MongoFilterPushdown

/-- `AppendValueToDocument` (src/mongo_filter_pushdown.cpp:115-178): build
    the `kvp(key, value)` appended for one DuckDB constant, converting
    24-hex strings on object-id columns to native object ids. -/
def appendValueToDocument (key : String) (value : DVal) (ty : LType)
    (columnName : String) : String × BVal :=
  if value.isNull then (key, .null)
  else
    let colForOidCheck := if columnName = "" then key else columnName
    match ty with
    | .varchar =>
      let s := value.getString
      if isObjectIdColumn colForOidCheck && isValidObjectIdHex s then
        (key, .oid s)
      else (key, .str s)
    | .bigint => (key, .i64 value.getI64)
    | .integer => (key, .i32 value.getI32)
    | .double => (key, .dbl value.getDbl)
    | .boolean => (key, .boolean value.getBool)
    | .date =>
      (key, .date (dateToEpochMs (match value with | .vdate d => d | _ => 0)))
    | .timestamp =>
      (key, .date (timestampToEpochMs (match value with | .vts t => t | _ => 0)))
    | _ => (key, .str value.toText)

/-- `AppendValueToArray` (src/mongo_filter_pushdown.cpp:53-111): the array
    variant of the same conversion. -/
def appendValueToArray (value : DVal) (ty : LType) (columnName : String) :
    BVal :=
  if value.isNull then .null
  else
    match ty with
    | .varchar =>
      let s := value.getString
      if isObjectIdColumn columnName && isValidObjectIdHex s then .oid s
      else .str s
    | .bigint => .i64 value.getI64
    | .integer => .i32 value.getI32
    | .double => .dbl value.getDbl
    | .boolean => .boolean value.getBool
    | .date => .date (dateToEpochMs (match value with | .vdate d => d | _ => 0))
    | .timestamp =>
      .date (timestampToEpochMs (match value with | .vts t => t | _ => 0))
    | _ => .str value.toText

mutual

/-- `ConvertSingleFilterToMongo` (src/mongo_filter_pushdown.cpp:181-328). -/
def convertSingleFilterToMongo (filter : TableFilter) (columnName : String)
    (columnType : LType) : BDoc :=
  match filter with
  | .constantComparison cmp c =>
    match cmp with
    | .eq => [appendValueToDocument columnName c columnType columnName]
    | .unsupported => []
    | op =>
      [(columnName,
        .doc [appendValueToDocument (mongoOpString op) c columnType columnName])]
  | .inFilter values =>
    if values.isEmpty then []
    else
      [(columnName,
        .doc [("$in",
          .arr (values.map (fun v => appendValueToArray v columnType columnName)))])]
  | .isNull => [(columnName, .null)]
  | .isNotNull => [(columnName, .doc [("$ne", .null)])]
  | .conjunctionAnd children =>
    [(columnName, .doc (convertAndChildren children columnName columnType))]
  | .conjunctionOr children =>
    let orArr := convertOrChildren children columnName columnType
    if orArr.isEmpty then [] else [("$or", .arr orArr)]
  | .structExtract childName child =>
    match child with
    | some cf =>
      convertSingleFilterToMongo cf (columnName ++ "." ++ childName) columnType
    | none => []
  | .optionalFilter child =>
    match child with
    | some cf => convertSingleFilterToMongo cf columnName columnType
    | none => []
  | .dynamicFilter initialized child =>
    match child with
    | some cf =>
      if initialized then convertSingleFilterToMongo cf columnName columnType
      else []
    | none => []

/-- The CONJUNCTION_AND child loop of src/mongo_filter_pushdown.cpp:249-264. -/
def convertAndChildren (children : List TableFilter) (columnName : String)
    (columnType : LType) : BDoc :=
  match children with
  | [] => []
  | c :: rest =>
    andMergeKvps columnName (convertSingleFilterToMongo c columnName columnType) ++
      convertAndChildren rest columnName columnType

/-- The CONJUNCTION_OR child loop of src/mongo_filter_pushdown.cpp:272-288:
    equality disjuncts become `{col: value}` entries, everything else is
    converted recursively and appended when non-empty. -/
def convertOrChildren (children : List TableFilter) (columnName : String)
    (columnType : LType) : List BVal :=
  match children with
  | [] => []
  | c :: rest =>
    (match c with
     | .constantComparison .eq v =>
       [BVal.doc [appendValueToDocument columnName v columnType columnName]]
     | _ =>
       let childDoc := convertSingleFilterToMongo c columnName columnType
       if childDoc.isEmpty then [] else [BVal.doc childDoc]) ++
      convertOrChildren rest columnName columnType

end

end MongoFilterPushdown

namespace MongoTableFunction

/-- `AppendValueToDocument` (src/mongo_table_function.cpp:1348-1402): the
    table-function revision has no object-id conversion. -/
def appendValueToDocument (key : String) (value : DVal) (ty : LType) :
    String × BVal :=
  if value.isNull then (key, .null)
  else
    match ty with
    | .varchar => (key, .str value.getString)
    | .bigint => (key, .i64 value.getI64)
    | .integer => (key, .i32 value.getI32)
    | .double => (key, .dbl value.getDbl)
    | .boolean => (key, .boolean value.getBool)
    | .date =>
      (key, .date (dateToEpochMs (match value with | .vdate d => d | _ => 0)))
    | .timestamp =>
      (key, .date (timestampToEpochMs (match value with | .vts t => t | _ => 0)))
    | _ => (key, .str value.toText)

/-- `AppendValueToArray` (src/mongo_table_function.cpp:1294-1345). -/
def appendValueToArray (value : DVal) (ty : LType) : BVal :=
  if value.isNull then .null
  else
    match ty with
    | .varchar => .str value.getString
    | .bigint => .i64 value.getI64
    | .integer => .i32 value.getI32
    | .double => .dbl value.getDbl
    | .boolean => .boolean value.getBool
    | .date => .date (dateToEpochMs (match value with | .vdate d => d | _ => 0))
    | .timestamp =>
      .date (timestampToEpochMs (match value with | .vts t => t | _ => 0))
    | _ => .str value.toText

/-- The all-equality pre-pass of the CONJUNCTION_OR arm
    (src/mongo_table_function.cpp:1492-1508): `some values` when every child
    is an equality comparison (collecting the constants in order), `none` as
    soon as any child is not. -/
def collectEqualityValues : List TableFilter → Option (List DVal)
  | [] => some []
  | c :: rest =>
    match c with
    | .constantComparison .eq v => (collectEqualityValues rest).map (v :: ·)
    | _ => none

mutual

/-- `ConvertSingleFilterToMongo` (src/mongo_table_function.cpp:1405-1544).
    This revision folds all-equality disjunctions with more than one
    disjunct into `$in`, merges only nested-document conditions in
    CONJUNCTION_AND, and hits `default:` (empty document) on struct,
    optional and dynamic filters. -/
def convertSingleFilterToMongo (filter : TableFilter) (columnName : String)
    (columnType : LType) : BDoc :=
  match filter with
  | .constantComparison cmp c =>
    match cmp with
    | .eq => [appendValueToDocument columnName c columnType]
    | .unsupported => []
    | op =>
      [(columnName, .doc [appendValueToDocument (mongoOpString op) c columnType])]
  | .inFilter values =>
    if values.isEmpty then []
    else
      [(columnName,
        .doc [("$in", .arr (values.map (fun v => appendValueToArray v columnType)))])]
  | .isNull => [(columnName, .null)]
  | .isNotNull => [(columnName, .doc [("$ne", .null)])]
  | .conjunctionAnd children =>
    [(columnName, .doc (convertAndChildren children columnName columnType))]
  | .conjunctionOr children =>
    match collectEqualityValues children with
    | some vs =>
      if vs.length > 1 then
        [(columnName,
          .doc [("$in", .arr (vs.map (fun v => appendValueToArray v columnType)))])]
      else
        if children.isEmpty then []
        else
          let orArr := convertOrChildren children columnName columnType
          if orArr.isEmpty then [] else [("$or", .arr orArr)]
    | none =>
      if children.isEmpty then []
      else
        let orArr := convertOrChildren children columnName columnType
        if orArr.isEmpty then [] else [("$or", .arr orArr)]
  | .structExtract _ _ => []
  | .optionalFilter _ => []
  | .dynamicFilter _ _ => []

/-- CONJUNCTION_AND child loop (src/mongo_table_function.cpp:1473-1485):
    only nested-document conditions registered under the column name are
    merged; any other pair of a child document is dropped. -/
def convertAndChildren (children : List TableFilter) (columnName : String)
    (columnType : LType) : BDoc :=
  match children with
  | [] => []
  | c :: rest =>
    (convertSingleFilterToMongo c columnName columnType).foldl
        (fun acc kv =>
          match kv with
          | (k, BVal.doc nested) =>
            if k = columnName then acc ++ nested else acc
          | _ => acc)
        [] ++
      convertAndChildren rest columnName columnType

/-- CONJUNCTION_OR fallback loop (src/mongo_table_function.cpp:1523-1532). -/
def convertOrChildren (children : List TableFilter) (columnName : String)
    (columnType : LType) : List BVal :=
  match children with
  | [] => []
  | c :: rest =>
    (let childDoc := convertSingleFilterToMongo c columnName columnType
     if childDoc.isEmpty then [] else [BVal.doc childDoc]) ++
      convertOrChildren rest columnName columnType

end

end MongoTableFunction

/-! ### C1 — OR-of-equalities folding into `$in` -/

/-- Is this child filter an equality comparison with a constant? -/
def isEqualityConstant : TableFilter → Bool
  | .constantComparison .eq _ => true
  | _ => false

/-- The constant of an equality-comparison child, if it is one. -/
def equalityConstant? : TableFilter → Option DVal
  | .constantComparison .eq v => some v
  | _ => none

theorem collectEqualityValues_of_all_eq :
    ∀ children : List TableFilter,
      children.all isEqualityConstant = true →
      MongoTableFunction.collectEqualityValues children =
        some (children.filterMap equalityConstant?) ∧
        (children.filterMap equalityConstant?).length = children.length := by
  intro children
  induction children with
  | nil => intro _; exact ⟨rfl, rfl⟩
  | cons c rest ih =>
    intro h
    simp only [List.all_cons, Bool.and_eq_true] at h
    obtain ⟨hc, hrest⟩ := h
    obtain ⟨ih1, ih2⟩ := ih hrest
    cases c with
    | constantComparison cmp v =>
      cases cmp with
      | eq =>
        refine ⟨?_, ?_⟩
        · simp [MongoTableFunction.collectEqualityValues, ih1, equalityConstant?,
            List.filterMap_cons]
        · simp [equalityConstant?, List.filterMap_cons, ih2]
      | neq => simp [isEqualityConstant] at hc
      | lt => simp [isEqualityConstant] at hc
      | le => simp [isEqualityConstant] at hc
      | gt => simp [isEqualityConstant] at hc
      | ge => simp [isEqualityConstant] at hc
      | unsupported => simp [isEqualityConstant] at hc
    | inFilter values => simp [isEqualityConstant] at hc
    | isNull => simp [isEqualityConstant] at hc
    | isNotNull => simp [isEqualityConstant] at hc
    | conjunctionAnd children => simp [isEqualityConstant] at hc
    | conjunctionOr children => simp [isEqualityConstant] at hc
    | structExtract n child => simp [isEqualityConstant] at hc
    | optionalFilter child => simp [isEqualityConstant] at hc
    | dynamicFilter i child => simp [isEqualityConstant] at hc

/-- C1 counterexample: a disjunction with a *single* equality disjunct
    (`status='A'`) satisfies "all disjuncts are equality comparisons with
    constants", yet the converter emits a one-element `$or` array
    (`equality_values.size() > 1` fails), not `{status:{$in:["A"]}}`. -/
theorem convertOr_c1_counterexample :
    MongoTableFunction.convertSingleFilterToMongo
        (.conjunctionOr [.constantComparison .eq (.vstr "A")]) "status" .varchar =
      [("$or", .arr [.doc [("status", .str "A")]])]
    ∧ MongoTableFunction.convertSingleFilterToMongo
        (.conjunctionOr [.constantComparison .eq (.vstr "A")]) "status" .varchar ≠
      [("status", BVal.doc [("$in", BVal.arr [BVal.str "A"])])] := by
  refine ⟨rfl, ?_⟩
  intro h
  have h0 : ("$or" : String) = "status" :=
    congrArg (fun l : BDoc => (l.headD ("", BVal.null)).1) h
  exact absurd h0 (by decide)

/-- C1 (amended): a pushed-down disjunction on one column whose disjuncts
    are all equality comparisons with constants *and number at least two*
    folds into a single `{path: {$in: [v1, v2, ...]}}` document; whenever at
    least two disjuncts are all equalities, no top-level `$or` array is
    emitted (a `$or` can appear only when some disjunct is not an equality
    or when there are fewer than two disjuncts). -/
theorem convertOr_c1_folding :
    (∀ (children : List TableFilter) (col : String) (ty : LType),
      children.all isEqualityConstant = true →
      2 ≤ children.length →
      MongoTableFunction.convertSingleFilterToMongo (.conjunctionOr children) col ty =
        [(col, .doc [("$in", .arr ((children.filterMap equalityConstant?).map
          (fun v => MongoTableFunction.appendValueToArray v ty)))])])
    ∧ (∀ (children : List TableFilter) (col : String) (ty : LType)
        (a : List BVal),
        children.all isEqualityConstant = true →
        2 ≤ children.length →
        MongoTableFunction.convertSingleFilterToMongo (.conjunctionOr children) col ty ≠
          [("$or", BVal.arr a)]) := by
  have main : ∀ (children : List TableFilter) (col : String) (ty : LType),
      children.all isEqualityConstant = true →
      2 ≤ children.length →
      MongoTableFunction.convertSingleFilterToMongo (.conjunctionOr children) col ty =
        [(col, .doc [("$in", .arr ((children.filterMap equalityConstant?).map
          (fun v => MongoTableFunction.appendValueToArray v ty)))])] := by
    intro children col ty hall hlen
    obtain ⟨hcol, hcount⟩ := collectEqualityValues_of_all_eq children hall
    simp only [MongoTableFunction.convertSingleFilterToMongo, hcol]
    rw [if_pos (by omega)]
  refine ⟨main, ?_⟩
  intro children col ty a hall hlen h
  rw [main children col ty hall hlen] at h
  have := congrArg (fun l : BDoc => (l.headD ("", BVal.null)).2) h
  simp at this

/-- C1 witness: `status='A' OR status='B'` on a VARCHAR column folds to
    `{status:{$in:["A","B"]}}`, and is not an `$or`. -/
theorem convertOr_c1_folding_witness :
    MongoTableFunction.convertSingleFilterToMongo
        (.conjunctionOr [.constantComparison .eq (.vstr "A"),
          .constantComparison .eq (.vstr "B")]) "status" .varchar =
      [("status", .doc [("$in", .arr [.str "A", .str "B"])])]
    ∧ MongoTableFunction.convertSingleFilterToMongo
        (.conjunctionOr [.constantComparison .eq (.vstr "A"),
          .constantComparison .eq (.vstr "B")]) "status" .varchar ≠
      [("$or", BVal.arr [])] :=
  ⟨(convertOr_c1_folding.1 _ "status" .varchar (by decide) (by decide)).trans rfl,
   convertOr_c1_folding.2 _ "status" .varchar [] (by decide) (by decide)⟩

/-! ### C8 — object-id coercion in the find-filter converter -/

/-- C8: in the converter of src/mongo_filter_pushdown.cpp, every comparison
    and every IN filter with a string constant emits the constant as a
    native BSON object id exactly when the column name is object-id-like
    (`_id`, ends in `._id`, or ends in `_id`) and the string is exactly 24
    hex characters; every other string constant is emitted as a string. -/
theorem appendValue_c8_objectid :
    (∀ (col s : String) (cmp : CmpType), cmp ≠ .unsupported →
      MongoFilterPushdown.convertSingleFilterToMongo
          (.constantComparison cmp (.vstr s)) col .varchar =
        (if cmp = .eq then
          [(col, if isObjectIdColumn col && isValidObjectIdHex s then
            BVal.oid s else BVal.str s)]
        else
          [(col, .doc [(mongoOpString cmp,
            if isObjectIdColumn col && isValidObjectIdHex s then
              BVal.oid s else BVal.str s)])]))
    ∧ (∀ (col : String) (ss : List String), ss ≠ [] →
        MongoFilterPushdown.convertSingleFilterToMongo
            (.inFilter (ss.map DVal.vstr)) col .varchar =
          [(col, .doc [("$in", .arr (ss.map (fun s =>
            if isObjectIdColumn col && isValidObjectIdHex s then
              BVal.oid s else BVal.str s)))])])
    ∧ (∀ s : String, isValidObjectIdHex s = true ↔
        s.length = 24 ∧ ∀ c ∈ s.data, isHexDigitChar c = true)
    ∧ (∀ c : String, isObjectIdColumn c = true ↔
        c = "_id" ∨ (4 < c.length ∧ strEndsWith c "._id" = true) ∨
          (3 < c.length ∧ strEndsWith c "_id" = true)) := by
  have happ : ∀ (col s : String),
      MongoFilterPushdown.appendValueToDocument col (.vstr s) .varchar col =
        (col, if isObjectIdColumn col && isValidObjectIdHex s then
          BVal.oid s else BVal.str s) := by
    intro col s
    simp only [MongoFilterPushdown.appendValueToDocument, DVal.isNull,
      DVal.getString, Bool.false_eq_true, if_false, ite_self]
    split <;> simp_all
  have happOp : ∀ (col s op : String), col ≠ "" →
      MongoFilterPushdown.appendValueToDocument op (.vstr s) .varchar col =
        (op, if isObjectIdColumn col && isValidObjectIdHex s then
          BVal.oid s else BVal.str s) := by
    intro col s op hcol
    simp only [MongoFilterPushdown.appendValueToDocument, DVal.isNull,
      DVal.getString, Bool.false_eq_true, if_false, if_neg hcol]
    split <;> simp_all
  have happEmpty : ∀ (s op : String), isObjectIdColumn op = false →
      MongoFilterPushdown.appendValueToDocument op (.vstr s) .varchar "" =
        (op, BVal.str s) := by
    intro s op hop
    simp only [MongoFilterPushdown.appendValueToDocument, DVal.isNull,
      DVal.getString, Bool.false_eq_true, if_false, if_pos rfl]
    simp [hop]
  refine ⟨?_, ?_, ?_, ?_⟩
  · intro col s cmp hcmp
    cases cmp <;>
      first
      | exact absurd rfl hcmp
      | (rw [if_pos rfl]
         simp only [MongoFilterPushdown.convertSingleFilterToMongo]
         rw [happ col s])
      | (rw [if_neg (by decide)]
         simp only [MongoFilterPushdown.convertSingleFilterToMongo, mongoOpString]
         by_cases hcol : col = ""
         · subst hcol
           rw [happEmpty _ _ (by decide)]
           simp [show isObjectIdColumn "" = false by decide]
         · rw [happOp col s _ hcol])
  · intro col ss hss
    have hne : (ss.map DVal.vstr).isEmpty = false := by
      cases ss with
      | nil => exact absurd rfl hss
      | cons a l => rfl
    simp only [MongoFilterPushdown.convertSingleFilterToMongo, hne,
      Bool.false_eq_true, if_false, List.map_map]
    refine congrArg (fun l => [(col, BVal.doc [("$in", BVal.arr l)])]) ?_
    refine List.map_congr_left ?_
    intro s _
    simp only [Function.comp, MongoFilterPushdown.appendValueToArray, DVal.isNull,
      DVal.getString, Bool.false_eq_true, if_false]
  · intro s
    simp [isValidObjectIdHex, List.all_eq_true]
  · intro c
    by_cases h1 : c = "_id"
    · subst h1; simp [isObjectIdColumn]
    · have h1' : (c == "_id") = false := by
        cases h : c == "_id"
        · rfl
        · exact absurd (by simpa using h) h1
      simp only [isObjectIdColumn, h1', Bool.false_eq_true, if_false]
      by_cases h2 : 4 < c.length ∧ strEndsWith c "._id" = true
      · rw [if_pos (by simp [h2.1, h2.2])]
        simp [h1, h2]
      · rw [if_neg (by
          intro hc
          simp only [Bool.and_eq_true, decide_eq_true_eq] at hc
          exact h2 ⟨hc.1, hc.2⟩)]
        simp only [Bool.and_eq_true, decide_eq_true_eq]
        constructor
        · intro hc
          exact Or.inr (Or.inr hc)
        · intro hc
          rcases hc with hc | hc | hc
          · exact absurd hc h1
          · exact absurd hc h2
          · exact hc

/-- C8 witness: `_id < \'507f1f77bcf86cd799439011\'` emits a native object id,
    and `status = \'abc\'` keeps the plain string. -/
theorem appendValue_c8_objectid_witness :
    MongoFilterPushdown.convertSingleFilterToMongo
        (.constantComparison .lt (.vstr "507f1f77bcf86cd799439011")) "_id" .varchar =
      [("_id", .doc [("$lt", BVal.oid "507f1f77bcf86cd799439011")])]
    ∧ MongoFilterPushdown.convertSingleFilterToMongo
        (.constantComparison .eq (.vstr "abc")) "status" .varchar =
      [("status", BVal.str "abc")] :=
  ⟨(appendValue_c8_objectid.1 "_id" "507f1f77bcf86cd799439011" .lt
      (by decide)).trans
    (by rw [if_neg (by decide)]
        simp only [mongoOpString]
        rw [if_pos (by decide)]),
   (appendValue_c8_objectid.1 "status" "abc" .eq (by decide)).trans
    (by rw [if_pos rfl, if_neg (by decide)])⟩

/-! ### Schema inference (src/mongo_schema_inference.cpp) -/

/-- `InferTypeFromBSONElement` (src/mongo_schema_inference.cpp:77-124).
    The date case uses C-style truncating division/modulus on the
    millisecond count. -/
def inferTypeFromBSON : BVal → LType
  | .str _ => .varchar
  | .i32 _ => .bigint
  | .i64 _ => .bigint
  | .dbl _ => .double
  | .dec128 _ => .double
  | .boolean _ => .boolean
  | .date ms => if (Int.tmod (Int.tdiv ms 1000) 86400) = 0 then .date else .timestamp
  | .oid _ => .varchar
  | .binary => .blob
  | .arr _ => .varchar
  | .doc _ => .varchar
  | _ => .varchar

/-- Append one sampled type under a field path
    (`field_types[path].push_back(type)`).  The C++ container is an
    unordered map; it is modelled as an insertion-ordered association list
    with unique keys, which preserves every property the schema builder
    relies on (key lookup and the key set). -/
def assocAppendType : List (String × List LType) → String → LType →
    List (String × List LType)
  | [], k, t => [(k, [t])]
  | (k', ts) :: rest, k, t =>
    if k' = k then (k', ts ++ [t]) :: rest
    else (k', ts) :: assocAppendType rest k t

/-- `map[key] = value` on a string map, modelled as an association-list
    update (overwrite existing key, else append). -/
def assocSet : List (String × String) → String → String →
    List (String × String)
  | [], k, v => [(k, v)]
  | (k', v') :: rest, k, v =>
    if k' = k then (k, v) :: rest
    else (k', v') :: assocSet rest k v

/-- `InferStructTypeFromArray` (src/mongo_schema_inference.cpp:395-455):
    scan the first 10 array elements; if any is not a document, fall back to
    VARCHAR; otherwise merge the fields (nested documents and arrays are
    stored as VARCHAR), resolve each field's type conflict, and build the
    STRUCT in `std::map` (lexicographic) key order. -/
def inferStructTypeFromArray (elems : List BVal) (depth : Nat) : LType :=
  if depth > 5 then .varchar
  else
    let scanned := elems.take 10
    if scanned.all (fun e => match e with | .doc _ => true | _ => false) then
      let structFields := scanned.foldl
        (fun acc e =>
          match e with
          | .doc fields =>
            fields.foldl
              (fun acc (kv : String × BVal) =>
                let fieldType :=
                  match kv.2 with
                  | .doc _ => LType.varchar
                  | .arr _ => LType.varchar
                  | v => inferTypeFromBSON v
                assocAppendType acc kv.1 fieldType)
              acc
          | _ => acc)
        []
      if structFields.isEmpty then .varchar
      else
        let sorted := structFields.mergeSort (fun a b => !(decide (b.1 < a.1)))
        .struct (LFields.ofList
          (sorted.map (fun p => (p.1, resolveTypeConflict p.2))))
    else .varchar

/-- `InferNestedArrayType` (src/mongo_schema_inference.cpp:350-391):
    element type of an array-of-arrays field, driven by first elements. -/
def inferNestedArrayType (elems : List BVal) (depth : Nat) : LType :=
  if _h : depth > 5 then .varchar
  else
    match elems with
    | [] => .varchar
    | first :: _ =>
      match first with
      | .arr nested =>
        match nested with
        | [] => .varchar
        | firstInner :: _ =>
          match firstInner with
          | .doc _ =>
            let structType := inferStructTypeFromArray nested (depth + 1)
            if structType.isStruct then .list structType else .varchar
          | .arr _ =>
            let deeperType := inferNestedArrayType nested (depth + 1)
            if deeperType.isList || deeperType = .varchar then .list deeperType
            else .varchar
          | v => .list (inferTypeFromBSON v)
      | v => .list (inferTypeFromBSON v)
termination_by 6 - depth
decreasing_by
  simp_wf
  omega

/-- The running state of sample inference: sampled types per flattened
    path, and the flattened-name → dotted-path map. -/
structure SchemaState where
  fieldTypes : List (String × List LType)
  pathMap : List (String × String)
deriving Repr

mutual

/-- `CollectFieldPaths` (src/mongo_schema_inference.cpp:812-891): the loop
    over the document's fields.  The loop body is `collectFieldOne`. -/
def collectFieldPaths (fields : List (String × BVal)) (pfx mongoPfx : String)
    (depth : Nat) (st : SchemaState) : SchemaState :=
  match fields with
  | [] => st
  | (key, v) :: rest =>
    collectFieldPaths rest pfx mongoPfx depth
      (collectFieldOne key v pfx mongoPfx depth st)
termination_by (6 - depth, fields.length + 1)
decreasing_by
  all_goals simp_wf
  all_goals omega

/-- One iteration of the `CollectFieldPaths` loop body, with the callee's
    depth guard (`depth > MAX_DEPTH` → record the parent path as VARCHAR
    when non-empty) inlined at the nested-document recursion. -/
def collectFieldOne (key : String) (v : BVal) (pfx mongoPfx : String)
    (depth : Nat) (st : SchemaState) : SchemaState :=
  let fullPath := if pfx = "" then key else pfx ++ "_" ++ key
  let mongoPath := if mongoPfx = "" then key else mongoPfx ++ "." ++ key
  let st1 : SchemaState :=
    { st with pathMap := assocSet st.pathMap fullPath mongoPath }
  match v with
  | .doc nested =>
    if depth + 1 > 5 then
      if fullPath = "" then st1
      else { st1 with
        fieldTypes := assocAppendType st1.fieldTypes fullPath .varchar }
    else collectFieldPaths nested fullPath mongoPath (depth + 1) st1
  | .arr elems =>
    match elems with
    | [] =>
      { st1 with
        fieldTypes := assocAppendType st1.fieldTypes fullPath .varchar }
    | first :: _ =>
      let ty :=
        match first with
        | .doc _ =>
          let structType := inferStructTypeFromArray elems depth
          if structType.isStruct then LType.list structType
          else LType.varchar
        | .arr _ =>
          let nestedListType := inferNestedArrayType elems depth
          if nestedListType.isList then LType.list nestedListType
          else LType.varchar
        | _ => LType.list (inferTypeFromBSON first)
      { st1 with fieldTypes := assocAppendType st1.fieldTypes fullPath ty }
  | _ =>
    { st1 with
      fieldTypes := assocAppendType st1.fieldTypes fullPath
        (inferTypeFromBSON v) }
termination_by (6 - depth, 0)
decreasing_by
  all_goals simp_wf
  all_goals omega

end

/-- The `_id` guarantee of `InferSchemaFromDocuments`
    (src/mongo_schema_inference.cpp:1087-1092): when no sampled document
    contributed an `_id` entry, add `_id : [VARCHAR]` and its path mapping. -/
def ensureIdState (st0 : SchemaState) : SchemaState :=
  if (st0.fieldTypes.find? (fun p => p.1 == "_id")).isSome then st0
  else
    { fieldTypes := st0.fieldTypes ++ [("_id", [.varchar])],
      pathMap := assocSet st0.pathMap "_id" "_id" }

/-- The column-building tail of `InferSchemaFromDocuments`
    (src/mongo_schema_inference.cpp:1094-1116): `_id` first, then the other
    collected paths, each type resolved by `ResolveTypeConflict`. -/
def buildSchemaColumns (st : SchemaState) :
    List String × List LType × List (String × String) :=
  let idTypes :=
    ((st.fieldTypes.find? (fun p => p.1 == "_id")).map Prod.snd).getD []
  let others := st.fieldTypes.filter (fun p => ¬(p.1 = "_id"))
  let columnNames := "_id" :: others.map Prod.fst
  let columnTypes :=
    resolveTypeConflict idTypes :: others.map (fun p => resolveTypeConflict p.2)
  (columnNames, columnTypes, st.pathMap)

/-- `InferSchemaFromDocuments` (src/mongo_schema_inference.cpp:1067-1116).
    The cursor is modelled by the list of sampled documents (the
    `sample_size` cap has already been applied to it). -/
def inferSchemaFromDocuments (docs : List BDoc) :
    List String × List LType × List (String × String) :=
  buildSchemaColumns
    (ensureIdState (docs.foldl (fun st d => collectFieldPaths d "" "" 0 st)
      ⟨[], []⟩))

/-- A child of the `columns` named parameter: a NULL value, a type string, a
    nested `{type, path}` struct, or a value of any other type. -/
inductive ColumnsSpec where
  | nullSpec
  | typeStr (s : String)
  | nested (fields : List (String × ColumnsSpec))
  | otherSpec
deriving Repr

/-- One child of the `columns` struct parameter
    (src/mongo_schema_inference.cpp:989-1043): validate it and append its
    name, type and dotted path.  `tstl` stands for DuckDB's external
    `TransformStringToLogicalType`; thrown `BinderException`s are modelled
    as `Except.error`. -/
def columnsParamStep (tstl : String → LType)
    (acc : List String × List LType × List (String × String))
    (child : String × ColumnsSpec) :
    Except String (List String × List LType × List (String × String)) :=
  let (name, val) := child
  match val with
  | .nullSpec =>
    throw "mongo_scan columns parameter type specification cannot be NULL"
  | .typeStr s =>
    pure (acc.1 ++ [name], acc.2.1 ++ [tstl s],
      assocSet acc.2.2 name name)
  | .nested fields =>
    match fields.find? (fun p => p.1.toLower == "type") with
    | some (_, .typeStr ts) =>
      let mongoPath :=
        match fields.find? (fun p => p.1.toLower == "path") with
        | some (_, .typeStr ps) => ps
        | _ => name
      pure (acc.1 ++ [name], acc.2.1 ++ [tstl ts],
        assocSet acc.2.2 name mongoPath)
    | _ =>
      throw "mongo_scan columns parameter nested struct must contain a type field"
  | .otherSpec =>
    throw "mongo_scan columns parameter type specification must be VARCHAR or STRUCT"

/-- `ParseSchemaFromColumnsParameter` (src/mongo_schema_inference.cpp:978-1065). -/
def parseSchemaFromColumnsParameter (tstl : String → LType)
    (children : List (String × ColumnsSpec)) :
    Except String (List String × List LType × List (String × String)) := do
  let folded ← children.foldlM (columnsParamStep tstl) ([], [], [])
  if folded.1.isEmpty then
    throw "mongo_scan columns parameter needs at least one column"
  else if folded.1.contains "_id" then
    pure folded
  else
    pure (folded.1 ++ ["_id"], folded.2.1 ++ [.varchar],
      assocSet folded.2.2 "_id" "_id")

/-- The schema view selected by `ParseSchemaFromAtlasDocument`
    (src/mongo_schema_inference.cpp:906-917): the inner `schema` document
    when present, the whole sidecar document otherwise. -/
def sidecarSchemaView (docView : BDoc) : BDoc :=
  match docView.find? (fun p => p.1 == "schema") with
  | some (_, BVal.doc inner) => inner
  | _ => docView

/-- One field of the sidecar schema view
    (src/mongo_schema_inference.cpp:921-958): skip `_id`/`schema` and
    invalid entries, otherwise append name, type and dotted path. -/
def sidecarFieldStep (tstl : String → LType)
    (acc : List String × List LType × List (String × String))
    (field : String × BVal) :
    List String × List LType × List (String × String) :=
  let (fieldName, v) := field
  if fieldName = "_id" ∨ fieldName = "schema" then acc
  else
    match v with
    | .str typeStr =>
      (acc.1 ++ [fieldName], acc.2.1 ++ [tstl typeStr],
        assocSet acc.2.2 fieldName fieldName)
    | .doc fieldDoc =>
      match fieldDoc.find? (fun p => p.1 == "type") with
      | some (_, .str ts) =>
        let mongoPath :=
          match fieldDoc.find? (fun p => p.1 == "path") with
          | some (_, .str ps) => ps
          | _ => fieldName
        (acc.1 ++ [fieldName], acc.2.1 ++ [tstl ts],
          assocSet acc.2.2 fieldName mongoPath)
      | _ => acc
    | _ => acc

/-- `ParseSchemaFromAtlasDocument` (src/mongo_schema_inference.cpp:893-976),
    applied to a sidecar `__schema` document that was found.  Invalid
    entries are skipped; `_id` and `schema` keys are skipped; `_id` is
    appended when missing (it always is, being skipped). -/
def parseSchemaFromAtlasDocument (tstl : String → LType) (docView : BDoc) :
    List String × List LType × List (String × String) :=
  let folded := (sidecarSchemaView docView).foldl (sidecarFieldStep tstl)
    ([], [], [])
  if folded.1.contains "_id" then folded
  else
    (folded.1 ++ ["_id"], folded.2.1 ++ [.varchar],
      assocSet folded.2.2 "_id" "_id")

/-! ### C4 — resolved-schema invariants -/

theorem keys_assocSet (m : List (String × String)) (k v : String) :
    (assocSet m k v).map Prod.fst =
      if k ∈ m.map Prod.fst then m.map Prod.fst else m.map Prod.fst ++ [k] := by
  induction m with
  | nil => simp [assocSet]
  | cons p rest ih =>
    obtain ⟨k', v'⟩ := p
    by_cases h : k' = k
    · subst h
      simp [assocSet]
    · simp only [assocSet, if_neg h, List.map_cons, ih]
      by_cases hm : k ∈ rest.map Prod.fst
      · rw [if_pos hm, if_pos (by simp [hm])]
      · rw [if_neg hm, if_neg (by
          simp only [List.mem_cons]
          rintro (hc | hc)
          · exact h hc.symm
          · exact hm hc)]
        simp

theorem mem_keys_assocSet {a : String} (m : List (String × String))
    (k v : String) :
    a ∈ (assocSet m k v).map Prod.fst ↔ a ∈ m.map Prod.fst ∨ a = k := by
  rw [keys_assocSet]
  by_cases h : k ∈ m.map Prod.fst
  · rw [if_pos h]
    constructor
    · exact Or.inl
    · rintro (hx | hx)
      · exact hx
      · exact hx ▸ h
  · rw [if_neg h]
    simp

theorem keys_assocAppendType (m : List (String × List LType)) (k : String)
    (t : LType) :
    (assocAppendType m k t).map Prod.fst =
      if k ∈ m.map Prod.fst then m.map Prod.fst else m.map Prod.fst ++ [k] := by
  induction m with
  | nil => simp [assocAppendType]
  | cons p rest ih =>
    obtain ⟨k', ts⟩ := p
    by_cases h : k' = k
    · subst h
      simp [assocAppendType]
    · simp only [assocAppendType, if_neg h, List.map_cons, ih]
      by_cases hm : k ∈ rest.map Prod.fst
      · rw [if_pos hm, if_pos (by simp [hm])]
      · rw [if_neg hm, if_neg (by
          simp only [List.mem_cons]
          rintro (hc | hc)
          · exact h hc.symm
          · exact hm hc)]
        simp

theorem nodup_keys_assocAppendType {m : List (String × List LType)}
    (k : String) (t : LType) (h : (m.map Prod.fst).Nodup) :
    ((assocAppendType m k t).map Prod.fst).Nodup := by
  rw [keys_assocAppendType]
  by_cases hm : k ∈ m.map Prod.fst
  · rwa [if_pos hm]
  · rw [if_neg hm]
    simp [List.nodup_append, h, hm]

/-- The running invariant of sample inference: the collected field paths are
    pairwise distinct and every collected field path has a registered
    dotted-path mapping. -/
def SchemaInv (st : SchemaState) : Prop :=
  (st.fieldTypes.map Prod.fst).Nodup ∧
    ∀ k ∈ st.fieldTypes.map Prod.fst, k ∈ st.pathMap.map Prod.fst

theorem schemaInv_setPath {st : SchemaState} (h : SchemaInv st)
    (k v : String) :
    SchemaInv { st with pathMap := assocSet st.pathMap k v } := by
  refine ⟨h.1, ?_⟩
  intro a ha
  exact (mem_keys_assocSet _ _ _).mpr (Or.inl (h.2 a ha))

theorem schemaInv_addType {st : SchemaState} (h : SchemaInv st)
    {k : String} (t : LType) (hk : k ∈ st.pathMap.map Prod.fst) :
    SchemaInv { st with fieldTypes := assocAppendType st.fieldTypes k t } := by
  refine ⟨nodup_keys_assocAppendType k t h.1, ?_⟩
  intro a ha
  rw [keys_assocAppendType] at ha
  by_cases hm : k ∈ st.fieldTypes.map Prod.fst
  · rw [if_pos hm] at ha
    exact h.2 a ha
  · rw [if_neg hm] at ha
    rcases List.mem_append.mp ha with ha | ha
    · exact h.2 a ha
    · simp only [List.mem_singleton] at ha
      exact ha ▸ hk

mutual

theorem collectFieldPaths_inv (fields : List (String × BVal))
    (pfx mongoPfx : String) (depth : Nat) (st : SchemaState)
    (h : SchemaInv st) :
    SchemaInv (collectFieldPaths fields pfx mongoPfx depth st) :=
  match fields with
  | [] => by rwa [collectFieldPaths]
  | (key, v) :: rest => by
    rw [collectFieldPaths]
    exact collectFieldPaths_inv rest pfx mongoPfx depth _
      (collectFieldOne_inv key v pfx mongoPfx depth st h)
termination_by (6 - depth, fields.length + 1)
decreasing_by
  all_goals simp_wf
  all_goals omega

theorem collectFieldOne_inv (key : String) (v : BVal) (pfx mongoPfx : String)
    (depth : Nat) (st : SchemaState) (h : SchemaInv st) :
    SchemaInv (collectFieldOne key v pfx mongoPfx depth st) := by
  have h1 : SchemaInv { st with
      pathMap := assocSet st.pathMap
        (if pfx = "" then key else pfx ++ "_" ++ key)
        (if mongoPfx = "" then key else mongoPfx ++ "." ++ key) } :=
    schemaInv_setPath h _ _
  have hk : (if pfx = "" then key else pfx ++ "_" ++ key) ∈
      (assocSet st.pathMap (if pfx = "" then key else pfx ++ "_" ++ key)
        (if mongoPfx = "" then key else mongoPfx ++ "." ++ key)).map Prod.fst :=
    (mem_keys_assocSet _ _ _).mpr (Or.inr rfl)
  cases v with
  | doc nested =>
    rw [collectFieldOne]
    by_cases hd : depth + 1 > 5
    · rw [if_pos hd]
      by_cases hp : (if pfx = "" then key else pfx ++ "_" ++ key) = ""
      · rw [if_pos hp]
        exact h1
      · rw [if_neg hp]
        exact schemaInv_addType h1 _ hk
    · rw [if_neg hd]
      exact collectFieldPaths_inv nested _ _ (depth + 1) _ h1
  | arr elems =>
    cases elems with
    | nil =>
      rw [collectFieldOne]
      exact schemaInv_addType h1 _ hk
    | cons first tail =>
      cases first <;>
        (rw [collectFieldOne] <;>
          first
            | exact schemaInv_addType h1 _ hk
            | exact fun _ hfalse => BVal.noConfusion hfalse)
  | null =>
    rw [collectFieldOne] <;>
      first
        | exact schemaInv_addType h1 _ hk
        | exact fun _ hfalse => BVal.noConfusion hfalse
  | undefined =>
    rw [collectFieldOne] <;>
      first
        | exact schemaInv_addType h1 _ hk
        | exact fun _ hfalse => BVal.noConfusion hfalse
  | str s =>
    rw [collectFieldOne] <;>
      first
        | exact schemaInv_addType h1 _ hk
        | exact fun _ hfalse => BVal.noConfusion hfalse
  | i32 n =>
    rw [collectFieldOne] <;>
      first
        | exact schemaInv_addType h1 _ hk
        | exact fun _ hfalse => BVal.noConfusion hfalse
  | i64 n =>
    rw [collectFieldOne] <;>
      first
        | exact schemaInv_addType h1 _ hk
        | exact fun _ hfalse => BVal.noConfusion hfalse
  | dbl x =>
    rw [collectFieldOne] <;>
      first
        | exact schemaInv_addType h1 _ hk
        | exact fun _ hfalse => BVal.noConfusion hfalse
  | dec128 s =>
    rw [collectFieldOne] <;>
      first
        | exact schemaInv_addType h1 _ hk
        | exact fun _ hfalse => BVal.noConfusion hfalse
  | boolean b =>
    rw [collectFieldOne] <;>
      first
        | exact schemaInv_addType h1 _ hk
        | exact fun _ hfalse => BVal.noConfusion hfalse
  | date ms =>
    rw [collectFieldOne] <;>
      first
        | exact schemaInv_addType h1 _ hk
        | exact fun _ hfalse => BVal.noConfusion hfalse
  | oid s =>
    rw [collectFieldOne] <;>
      first
        | exact schemaInv_addType h1 _ hk
        | exact fun _ hfalse => BVal.noConfusion hfalse
  | binary =>
    rw [collectFieldOne] <;>
      first
        | exact schemaInv_addType h1 _ hk
        | exact fun _ hfalse => BVal.noConfusion hfalse
  | regex p o =>
    rw [collectFieldOne] <;>
      first
        | exact schemaInv_addType h1 _ hk
        | exact fun _ hfalse => BVal.noConfusion hfalse
  | code s =>
    rw [collectFieldOne] <;>
      first
        | exact schemaInv_addType h1 _ hk
        | exact fun _ hfalse => BVal.noConfusion hfalse
  | codeWScope s =>
    rw [collectFieldOne] <;>
      first
        | exact schemaInv_addType h1 _ hk
        | exact fun _ hfalse => BVal.noConfusion hfalse
  | symbol s =>
    rw [collectFieldOne] <;>
      first
        | exact schemaInv_addType h1 _ hk
        | exact fun _ hfalse => BVal.noConfusion hfalse
  | tstamp t i =>
    rw [collectFieldOne] <;>
      first
        | exact schemaInv_addType h1 _ hk
        | exact fun _ hfalse => BVal.noConfusion hfalse
  | dbPointer =>
    rw [collectFieldOne] <;>
      first
        | exact schemaInv_addType h1 _ hk
        | exact fun _ hfalse => BVal.noConfusion hfalse
  | minKey =>
    rw [collectFieldOne] <;>
      first
        | exact schemaInv_addType h1 _ hk
        | exact fun _ hfalse => BVal.noConfusion hfalse
  | maxKey =>
    rw [collectFieldOne] <;>
      first
        | exact schemaInv_addType h1 _ hk
        | exact fun _ hfalse => BVal.noConfusion hfalse
termination_by (6 - depth, 0)
decreasing_by
  all_goals simp_wf
  all_goals omega

end

theorem schemaInv_foldDocs (docs : List BDoc) (st : SchemaState)
    (h : SchemaInv st) :
    SchemaInv (docs.foldl (fun st d => collectFieldPaths d "" "" 0 st) st) := by
  induction docs generalizing st with
  | nil => simpa
  | cons d rest ih =>
    simp only [List.foldl_cons]
    exact ih _ (collectFieldPaths_inv d "" "" 0 st h)

theorem schemaInv_ensureIdState {st0 : SchemaState} (h : SchemaInv st0) :
    SchemaInv (ensureIdState st0) ∧
      "_id" ∈ (ensureIdState st0).fieldTypes.map Prod.fst := by
  unfold ensureIdState
  by_cases hf : (st0.fieldTypes.find? (fun p => p.1 == "_id")).isSome
  · rw [if_pos hf]
    refine ⟨h, ?_⟩
    obtain ⟨p, hmem, hp⟩ := List.find?_isSome.mp hf
    simp only [beq_iff_eq] at hp
    exact hp ▸ List.mem_map_of_mem Prod.fst hmem
  · rw [if_neg hf]
    have hnone : st0.fieldTypes.find? (fun p => p.1 == "_id") = none := by
      cases hc : st0.fieldTypes.find? (fun p => p.1 == "_id")
      · rfl
      · exact absurd (by simp [hc]) hf
    have hnot : "_id" ∉ st0.fieldTypes.map Prod.fst := by
      intro hmem
      obtain ⟨p, hp, hfst⟩ := List.mem_map.mp hmem
      have := List.find?_eq_none.mp hnone p hp
      simp [hfst] at this
    refine ⟨⟨?_, ?_⟩, ?_⟩
    · simp only [List.map_append, List.map_cons, List.map_nil]
      simp [List.nodup_append, h.1, hnot]
    · intro k hk
      simp only [List.map_append, List.map_cons, List.map_nil,
        List.mem_append, List.mem_singleton] at hk
      rcases hk with hk | hk
      · exact (mem_keys_assocSet _ _ _).mpr (Or.inl (h.2 k hk))
      · exact (mem_keys_assocSet _ _ _).mpr (Or.inr hk)
    · simp

theorem buildSchemaColumns_props {st : SchemaState} (h : SchemaInv st)
    (hid : "_id" ∈ st.fieldTypes.map Prod.fst) :
    (buildSchemaColumns st).1.length = (buildSchemaColumns st).2.1.length
    ∧ (buildSchemaColumns st).1.Nodup
    ∧ "_id" ∈ (buildSchemaColumns st).1
    ∧ ∀ n ∈ (buildSchemaColumns st).1,
        n ∈ (buildSchemaColumns st).2.2.map Prod.fst := by
  have hsub : List.Sublist
      ((st.fieldTypes.filter (fun p => ¬(p.1 = "_id"))).map Prod.fst)
      (st.fieldTypes.map Prod.fst) :=
    (List.filter_sublist _).map Prod.fst
  refine ⟨?_, ?_, ?_, ?_⟩
  · simp [buildSchemaColumns]
  · simp only [buildSchemaColumns, List.nodup_cons]
    constructor
    · intro hmem
      obtain ⟨p, hp, hfst⟩ := List.mem_map.mp hmem
      have := List.of_mem_filter hp
      simp [hfst] at this
    · exact h.1.sublist hsub
  · simp [buildSchemaColumns]
  · intro n hn
    simp only [buildSchemaColumns, List.mem_cons] at hn
    rcases hn with hn | hn
    · exact h.2 _ (hn ▸ hid)
    · exact h.2 _ (hsub.mem hn)

/-- C4 counterexample: sample inference on the single document
    `{_id:"a", addr:{city:"X"}}` yields two columns but three `path_map`
    entries — `CollectFieldPaths` registers a path for the intermediate
    nested document `addr` without making it a column, so the three
    containers do not all have the same length. -/
theorem inferSchema_c4_counterexample :
    (inferSchemaFromDocuments
      [[("_id", .str "a"), ("addr", .doc [("city", .str "X")])]]).1.length = 2
    ∧ (inferSchemaFromDocuments
      [[("_id", .str "a"), ("addr", .doc [("city", .str "X")])]]).2.2.length = 3 := by
  constructor <;>
    simp [inferSchemaFromDocuments, buildSchemaColumns, ensureIdState,
      collectFieldPaths, collectFieldOne, assocSet, assocAppendType,
      List.find?, inferTypeFromBSON]

theorem columnsParamStep_ok {tstl : String → LType}
    {acc : List String × List LType × List (String × String)}
    {child : String × ColumnsSpec}
    {r : List String × List LType × List (String × String)}
    (h : columnsParamStep tstl acc child = .ok r) :
    ∃ ty path,
      r = (acc.1 ++ [child.1], acc.2.1 ++ [ty], assocSet acc.2.2 child.1 path) := by
  obtain ⟨name, val⟩ := child
  cases val with
  | nullSpec => exact absurd h (by simp [columnsParamStep])
  | otherSpec => exact absurd h (by simp [columnsParamStep])
  | typeStr s =>
    refine ⟨tstl s, name, ?_⟩
    simp only [columnsParamStep, pure, Except.pure, Except.ok.injEq] at h
    exact h.symm
  | nested fields =>
    simp only [columnsParamStep] at h
    cases hf : fields.find? (fun p => p.1.toLower == "type") with
    | none => rw [hf] at h; exact absurd h (by simp)
    | some p =>
      obtain ⟨k, spec⟩ := p
      cases spec with
      | typeStr ts =>
        rw [hf] at h
        simp only [pure, Except.pure, Except.ok.injEq] at h
        exact ⟨tstl ts, _, h.symm⟩
      | nullSpec => rw [hf] at h; exact absurd h (by simp)
      | otherSpec => rw [hf] at h; exact absurd h (by simp)
      | nested f2 => rw [hf] at h; exact absurd h (by simp)

theorem columnsFold_ok {tstl : String → LType} :
    ∀ (children : List (String × ColumnsSpec))
      (acc res : List String × List LType × List (String × String)),
      List.foldlM (columnsParamStep tstl) acc children = .ok res →
      acc.2.2.map Prod.fst = acc.1 →
      acc.1.length = acc.2.1.length →
      (acc.1 ++ children.map Prod.fst).Nodup →
      res.1 = acc.1 ++ children.map Prod.fst ∧
        res.2.2.map Prod.fst = res.1 ∧
        res.1.length = res.2.1.length := by
  intro children
  induction children with
  | nil =>
    intro acc res h hpm hlen _
    simp only [List.foldlM_nil, pure, Except.pure, Except.ok.injEq] at h
    subst h
    simpa using ⟨hpm, hlen⟩
  | cons c rest ih =>
    intro acc res h hpm hlen hnodup
    rw [List.foldlM_cons] at h
    cases hstep : columnsParamStep tstl acc c with
    | error e =>
      rw [hstep] at h
      exact absurd h (by simp [Bind.bind, Except.bind])
    | ok acc' =>
      rw [hstep] at h
      simp only [Bind.bind, Except.bind] at h
      obtain ⟨ty, path, hacc'⟩ := columnsParamStep_ok hstep
      subst hacc'
      have hfresh : c.1 ∉ acc.1 := by
        have hd := hnodup
        rw [List.nodup_append] at hd
        intro hc
        exact hd.2.2 hc (by simp)
      have hassoc : (acc.1 ++ [c.1]) ++ rest.map Prod.fst =
          acc.1 ++ (c.1 :: rest.map Prod.fst) := by
        simp
      obtain ⟨h1, h2, h3⟩ := ih _ res h
        (by rw [keys_assocSet, if_neg (hpm ▸ hfresh), hpm])
        (by simp [hlen])
        (by rw [hassoc]; simpa using hnodup)
      refine ⟨?_, h2, h3⟩
      rw [h1]
      simp

theorem columnsParse_props {tstl : String → LType}
    {children : List (String × ColumnsSpec)}
    {res : List String × List LType × List (String × String)}
    (hok : parseSchemaFromColumnsParameter tstl children = .ok res)
    (hnodup : (children.map Prod.fst).Nodup) :
    res.1.length = res.2.1.length ∧ res.2.2.length = res.1.length ∧
      res.1.Nodup ∧ "_id" ∈ res.1 := by
  unfold parseSchemaFromColumnsParameter at hok
  cases hfold : List.foldlM (columnsParamStep tstl) ([], [], []) children with
  | error e =>
    rw [hfold] at hok
    exact absurd hok (by simp [Bind.bind, Except.bind])
  | ok folded =>
    rw [hfold] at hok
    simp only [Bind.bind, Except.bind] at hok
    obtain ⟨h1, h2, h3⟩ := columnsFold_ok children _ folded hfold rfl rfl
      (by simpa using hnodup)
    simp only [List.nil_append] at h1
    by_cases hempty : folded.1.isEmpty
    · rw [if_pos hempty] at hok
      exact absurd hok (by simp [throw, throwThe, MonadExceptOf.throw])
    · rw [if_neg hempty] at hok
      by_cases hid : folded.1.contains "_id"
      · rw [if_pos hid] at hok
        simp only [pure, Except.pure, Except.ok.injEq] at hok
        subst hok
        refine ⟨h3, ?_, h1 ▸ hnodup, ?_⟩
        · calc folded.2.2.length = (folded.2.2.map Prod.fst).length := by simp
            _ = folded.1.length := by rw [h2]
        · have := hid
          simpa [List.contains] using List.elem_iff.mp this
      · rw [if_neg hid] at hok
        simp only [pure, Except.pure, Except.ok.injEq] at hok
        subst hok
        have hnid : "_id" ∉ folded.1 := by
          intro hc
          exact hid (List.elem_iff.mpr hc)
        refine ⟨by simp [h3], ?_, ?_, by simp⟩
        · have hkeys : (assocSet folded.2.2 "_id" "_id").map Prod.fst =
              folded.1 ++ ["_id"] := by
            rw [keys_assocSet, if_neg (h2 ▸ hnid), h2]
          calc (assocSet folded.2.2 "_id" "_id").length
              = ((assocSet folded.2.2 "_id" "_id").map Prod.fst).length := by simp
            _ = (folded.1 ++ ["_id"]).length := by rw [hkeys]
        · rw [List.nodup_append]
          refine ⟨h1 ▸ hnodup, by simp, ?_⟩
          intro x hx hy
          simp only [List.mem_singleton] at hy
          exact hnid (hy ▸ hx)

theorem sidecarFold_props {tstl : String → LType} :
    ∀ (sdv : BDoc) (acc : List String × List LType × List (String × String)),
      acc.2.2.map Prod.fst = acc.1 → acc.1.length = acc.2.1.length →
      acc.1.Nodup → "_id" ∉ acc.1 →
      (∀ k ∈ sdv.map Prod.fst, k ∉ acc.1) → (sdv.map Prod.fst).Nodup →
      (sdv.foldl (sidecarFieldStep tstl) acc).2.2.map Prod.fst =
          (sdv.foldl (sidecarFieldStep tstl) acc).1 ∧
        (sdv.foldl (sidecarFieldStep tstl) acc).1.length =
          (sdv.foldl (sidecarFieldStep tstl) acc).2.1.length ∧
        (sdv.foldl (sidecarFieldStep tstl) acc).1.Nodup ∧
        "_id" ∉ (sdv.foldl (sidecarFieldStep tstl) acc).1 := by
  intro sdv
  induction sdv with
  | nil =>
    intro acc hpm hlen hnodup hnid _ _
    exact ⟨hpm, hlen, hnodup, hnid⟩
  | cons field rest ih =>
    intro acc hpm hlen hnodup hnid hfresh hkeys
    obtain ⟨fieldName, v⟩ := field
    rw [List.foldl_cons]
    have hkeys' : (rest.map Prod.fst).Nodup := by
      simpa using hkeys.of_cons
    have hname_fresh : fieldName ∉ acc.1 :=
      hfresh fieldName (by simp)
    -- characterize the step
    have hstep : sidecarFieldStep tstl acc (fieldName, v) = acc ∨
        (fieldName ≠ "_id" ∧ ∃ ty path,
          sidecarFieldStep tstl acc (fieldName, v) =
            (acc.1 ++ [fieldName], acc.2.1 ++ [ty],
              assocSet acc.2.2 fieldName path)) := by
      by_cases hskip : fieldName = "_id" ∨ fieldName = "schema"
      · exact Or.inl (by simp [sidecarFieldStep, hskip])
      · push_neg at hskip
        cases v with
        | str typeStr =>
          exact Or.inr ⟨hskip.1, tstl typeStr, fieldName, by
            simp [sidecarFieldStep, hskip.1, hskip.2]⟩
        | doc fieldDoc =>
          cases hf : fieldDoc.find? (fun p => p.1 == "type") with
          | none =>
            exact Or.inl (by simp [sidecarFieldStep, hskip.1, hskip.2, hf])
          | some p =>
            obtain ⟨k, spec⟩ := p
            cases spec with
            | str ts =>
              refine Or.inr ⟨hskip.1, tstl ts,
                (match fieldDoc.find? (fun p => p.1 == "path") with
                 | some (_, .str ps) => ps
                 | _ => fieldName), ?_⟩
              simp [sidecarFieldStep, hskip.1, hskip.2, hf]
            | null => exact Or.inl (by simp [sidecarFieldStep, hskip.1, hskip.2, hf])
            | undefined => exact Or.inl (by simp [sidecarFieldStep, hskip.1, hskip.2, hf])
            | i32 n => exact Or.inl (by simp [sidecarFieldStep, hskip.1, hskip.2, hf])
            | i64 n => exact Or.inl (by simp [sidecarFieldStep, hskip.1, hskip.2, hf])
            | dbl x => exact Or.inl (by simp [sidecarFieldStep, hskip.1, hskip.2, hf])
            | dec128 s => exact Or.inl (by simp [sidecarFieldStep, hskip.1, hskip.2, hf])
            | boolean b => exact Or.inl (by simp [sidecarFieldStep, hskip.1, hskip.2, hf])
            | date ms => exact Or.inl (by simp [sidecarFieldStep, hskip.1, hskip.2, hf])
            | oid s => exact Or.inl (by simp [sidecarFieldStep, hskip.1, hskip.2, hf])
            | binary => exact Or.inl (by simp [sidecarFieldStep, hskip.1, hskip.2, hf])
            | regex p o => exact Or.inl (by simp [sidecarFieldStep, hskip.1, hskip.2, hf])
            | code s => exact Or.inl (by simp [sidecarFieldStep, hskip.1, hskip.2, hf])
            | codeWScope s => exact Or.inl (by simp [sidecarFieldStep, hskip.1, hskip.2, hf])
            | symbol s => exact Or.inl (by simp [sidecarFieldStep, hskip.1, hskip.2, hf])
            | tstamp t i => exact Or.inl (by simp [sidecarFieldStep, hskip.1, hskip.2, hf])
            | dbPointer => exact Or.inl (by simp [sidecarFieldStep, hskip.1, hskip.2, hf])
            | minKey => exact Or.inl (by simp [sidecarFieldStep, hskip.1, hskip.2, hf])
            | maxKey => exact Or.inl (by simp [sidecarFieldStep, hskip.1, hskip.2, hf])
            | arr elems => exact Or.inl (by simp [sidecarFieldStep, hskip.1, hskip.2, hf])
            | doc inner => exact Or.inl (by simp [sidecarFieldStep, hskip.1, hskip.2, hf])
        | null => exact Or.inl (by simp [sidecarFieldStep, hskip.1, hskip.2])
        | undefined => exact Or.inl (by simp [sidecarFieldStep, hskip.1, hskip.2])
        | i32 n => exact Or.inl (by simp [sidecarFieldStep, hskip.1, hskip.2])
        | i64 n => exact Or.inl (by simp [sidecarFieldStep, hskip.1, hskip.2])
        | dbl x => exact Or.inl (by simp [sidecarFieldStep, hskip.1, hskip.2])
        | dec128 s => exact Or.inl (by simp [sidecarFieldStep, hskip.1, hskip.2])
        | boolean b => exact Or.inl (by simp [sidecarFieldStep, hskip.1, hskip.2])
        | date ms => exact Or.inl (by simp [sidecarFieldStep, hskip.1, hskip.2])
        | oid s => exact Or.inl (by simp [sidecarFieldStep, hskip.1, hskip.2])
        | binary => exact Or.inl (by simp [sidecarFieldStep, hskip.1, hskip.2])
        | regex p o => exact Or.inl (by simp [sidecarFieldStep, hskip.1, hskip.2])
        | code s => exact Or.inl (by simp [sidecarFieldStep, hskip.1, hskip.2])
        | codeWScope s => exact Or.inl (by simp [sidecarFieldStep, hskip.1, hskip.2])
        | symbol s => exact Or.inl (by simp [sidecarFieldStep, hskip.1, hskip.2])
        | tstamp t i => exact Or.inl (by simp [sidecarFieldStep, hskip.1, hskip.2])
        | dbPointer => exact Or.inl (by simp [sidecarFieldStep, hskip.1, hskip.2])
        | minKey => exact Or.inl (by simp [sidecarFieldStep, hskip.1, hskip.2])
        | maxKey => exact Or.inl (by simp [sidecarFieldStep, hskip.1, hskip.2])
        | arr elems => exact Or.inl (by simp [sidecarFieldStep, hskip.1, hskip.2])
    rcases hstep with hstep | ⟨hnid', ty, path, hstep⟩
    · rw [hstep]
      exact ih acc hpm hlen hnodup hnid
        (fun k hk => hfresh k (by simp [hk])) hkeys'
    · rw [hstep]
      have hfname_keys : fieldName ∉ rest.map Prod.fst := by
        have := hkeys
        simp only [List.map_cons, List.nodup_cons] at this
        exact this.1
      refine ih _ ?_ ?_ ?_ ?_ ?_ hkeys'
      · rw [keys_assocSet, if_neg (hpm ▸ hname_fresh), hpm]
      · simp [hlen]
      · rw [List.nodup_append]
        refine ⟨hnodup, by simp, ?_⟩
        intro x hx hy
        simp only [List.mem_singleton] at hy
        exact hname_fresh (hy ▸ hx)
      · simp only [List.mem_append, List.mem_singleton]
        rintro (hc | hc)
        · exact hnid hc
        · exact hnid' hc.symm
      · intro k hk
        simp only [List.mem_append, List.mem_singleton]
        rintro (hc | hc)
        · exact hfresh k (by simp [hk]) hc
        · exact hfname_keys (hc ▸ hk)

theorem sidecarParse_props {tstl : String → LType} {docView : BDoc}
    (hnodup : ((sidecarSchemaView docView).map Prod.fst).Nodup) :
    (parseSchemaFromAtlasDocument tstl docView).1.length =
        (parseSchemaFromAtlasDocument tstl docView).2.1.length
    ∧ (parseSchemaFromAtlasDocument tstl docView).2.2.length =
        (parseSchemaFromAtlasDocument tstl docView).1.length
    ∧ (parseSchemaFromAtlasDocument tstl docView).1.Nodup
    ∧ "_id" ∈ (parseSchemaFromAtlasDocument tstl docView).1 := by
  unfold parseSchemaFromAtlasDocument
  obtain ⟨hpm, hlen, hnd, hnid⟩ :=
    @sidecarFold_props tstl (sidecarSchemaView docView) ([], [], [])
      rfl rfl (by simp) (by simp) (by simp) hnodup
  set folded := (sidecarSchemaView docView).foldl (sidecarFieldStep tstl)
    ([], [], []) with hfolded
  have hcontains : folded.1.contains "_id" = false := by
    cases hc : folded.1.contains "_id"
    · rfl
    · exact absurd (List.elem_iff.mp hc) hnid
  simp only [hcontains, Bool.false_eq_true, if_false]
  refine ⟨by simp [hlen], ?_, ?_, by simp⟩
  · have hkeys : (assocSet folded.2.2 "_id" "_id").map Prod.fst =
        folded.1 ++ ["_id"] := by
      rw [keys_assocSet, if_neg (hpm ▸ hnid), hpm]
    calc (assocSet folded.2.2 "_id" "_id").length
        = ((assocSet folded.2.2 "_id" "_id").map Prod.fst).length := by simp
      _ = (folded.1 ++ ["_id"]).length := by rw [hkeys]
  · rw [List.nodup_append]
    refine ⟨hnd, by simp, ?_⟩
    intro x hx hy
    simp only [List.mem_singleton] at hy
    exact hnid (hy ▸ hx)

/-- C4 (amended): every resolved schema has `column_names` and
    `column_types` of the same length, case-sensitively unique column
    names, and `_id` among the columns.  For the explicit-columns path
    (given distinct caller-supplied names) and the sidecar path (given
    distinct keys in the schema document) the `path_map` additionally has
    exactly the same length; for sample inference every column name has a
    `path_map` entry, but `path_map` may also record extra paths for
    intermediate nested documents, so its length can exceed the column
    count. -/
theorem schema_c4_invariants :
    (∀ docs : List BDoc,
      (inferSchemaFromDocuments docs).1.length =
          (inferSchemaFromDocuments docs).2.1.length
      ∧ (inferSchemaFromDocuments docs).1.Nodup
      ∧ "_id" ∈ (inferSchemaFromDocuments docs).1
      ∧ ∀ n ∈ (inferSchemaFromDocuments docs).1,
          n ∈ (inferSchemaFromDocuments docs).2.2.map Prod.fst)
    ∧ (∀ (tstl : String → LType) (children : List (String × ColumnsSpec))
        (res : List String × List LType × List (String × String)),
        parseSchemaFromColumnsParameter tstl children = .ok res →
        (children.map Prod.fst).Nodup →
        res.1.length = res.2.1.length ∧ res.2.2.length = res.1.length ∧
          res.1.Nodup ∧ "_id" ∈ res.1)
    ∧ (∀ (tstl : String → LType) (docView : BDoc),
        ((sidecarSchemaView docView).map Prod.fst).Nodup →
        (parseSchemaFromAtlasDocument tstl docView).1.length =
            (parseSchemaFromAtlasDocument tstl docView).2.1.length
        ∧ (parseSchemaFromAtlasDocument tstl docView).2.2.length =
            (parseSchemaFromAtlasDocument tstl docView).1.length
        ∧ (parseSchemaFromAtlasDocument tstl docView).1.Nodup
        ∧ "_id" ∈ (parseSchemaFromAtlasDocument tstl docView).1) := by
  refine ⟨?_, ?_, ?_⟩
  · intro docs
    have hst0 : SchemaInv (docs.foldl
        (fun st d => collectFieldPaths d "" "" 0 st) ⟨[], []⟩) :=
      schemaInv_foldDocs docs _ ⟨by simp, by simp⟩
    obtain ⟨hinv, hid⟩ := schemaInv_ensureIdState hst0
    exact buildSchemaColumns_props hinv hid
  · intro tstl children res hok hnodup
    exact columnsParse_props hok hnodup
  · intro tstl docView hnodup
    exact sidecarParse_props hnodup

/-- C4 witness: the invariants at concrete inputs of the explicit-columns
    and sidecar paths and of sample inference. -/
theorem schema_c4_invariants_witness :
    ("_id" ∈ (inferSchemaFromDocuments [[("x", BVal.i64 1)]]).1)
    ∧ ("_id" ∈ (["x", "_id"] : List String))
    ∧ ("_id" ∈ (parseSchemaFromAtlasDocument (fun _ => LType.varchar)
        [("_id", BVal.str "__schema"), ("a", BVal.str "VARCHAR")]).1) :=
  ⟨(schema_c4_invariants.1 [[("x", BVal.i64 1)]]).2.2.1,
   (schema_c4_invariants.2.1 (fun _ => LType.varchar) [("x", .typeStr "BIGINT")]
      (["x", "_id"], [LType.varchar, LType.varchar], [("x", "x"), ("_id", "_id")])
      rfl (by decide)).2.2.2,
   (schema_c4_invariants.2.2 (fun _ => LType.varchar)
      [("_id", BVal.str "__schema"), ("a", BVal.str "VARCHAR")] (by decide)).2.2.2⟩

/-! ### Document materialization (src/mongo_schema_inference.cpp:457-810,
    1118-1764) -/

/-- DuckDB `Value`s produced by materialization.  `nullOf t` is the NULL
    value of type `t` (C++ `Value(type)`); `strct` carries the struct type
    handed to `Value::STRUCT`.  Numeric payloads are symbolic: `dbl` is the
    opaque double tag, `dateV` the `date_t` days, `tsV` the `timestamp_t`
    microseconds. -/
inductive Val where
  | nullOf (t : LType)
  | str (s : String)
  | int (n : Int)
  | huge (n : Int)
  | dbl (x : Int)
  | boolean (b : Bool)
  | dateV (d : Int)
  | tsV (t : Int)
  | list (child : LType) (elems : List Val)
  | strct (t : LType) (fields : List Val)
deriving Repr

/-- `Value::type()`. -/
def Val.typeOf : Val → LType
  | .nullOf t => t
  | .str _ => .varchar
  | .int _ => .bigint
  | .huge _ => .hugeint
  | .dbl _ => .double
  | .boolean _ => .boolean
  | .dateV _ => .date
  | .tsV _ => .timestamp
  | .list child _ => .list child
  | .strct t _ => t

/-- `Value::LIST(child_type, values)`: succeeds only when every element
    value has exactly the child type; the C++ call throws otherwise (the
    call sites catch the exception and store NULL). -/
def mkList (child : LType) (vs : List Val) : Option Val :=
  if vs.all (fun v => v.typeOf == child) then some (.list child vs) else none

/-- A cast function standing for DuckDB's external
    `Value::DefaultTryCastAs`: `none` models a failed cast.  The
    verification is parameterized over any cast that returns values of the
    requested type (`CastContract`). -/
def CastContract (tryCast : Val → LType → Option Val) : Prop :=
  ∀ v t w, tryCast v t = some w → w.typeOf = t

/-- `doc[key]` (`bsoncxx` view lookup: first matching key). -/
def bdocGet (doc : BDoc) (k : String) : Option BVal :=
  (doc.find? (fun p => p.1 == k)).map Prod.snd

/-- `Timestamp::GetDate(Timestamp::FromEpochMs(ms))`: epoch days. -/
def epochMsToDateDays (ms : Int) : Int := Int.fdiv ms 86400000

/-- `Timestamp::FromEpochMs`: microseconds since epoch. -/
def epochMsToMicros (ms : Int) : Int := ms * 1000

/-- The double → int64 narrowing `static_cast<int64_t>(x)`; the double
    payload being symbolic, the narrowing is carried as the identity on the
    tag. -/
def doubleToInt64 (x : Int) : Int := x

/-- `std::stod` of a decimal128's string form, as an opaque tag. -/
def decimal128ToDouble (s : String) : Int := s.length

mutual
/-- Model of `bsoncxx::to_json` on a document (external libbson
    serializer; only its composition with `NormalizeJson` is observable,
    and no claim inspects the serialized text). -/
def bsonToJson (doc : BDoc) : String :=
  "\x7b " ++ String.intercalate ", " (bsonFieldsToJson doc) ++ " \x7d"

def bsonFieldsToJson : BDoc → List String
  | [] => []
  | (k, v) :: rest =>
    ("\"" ++ k ++ "\" : " ++ bsonValToJson v) :: bsonFieldsToJson rest

def bsonArrToJson (elems : List BVal) : String :=
  "[ " ++ String.intercalate ", " (bsonElemsToJson elems) ++ " ]"

def bsonElemsToJson : List BVal → List String
  | [] => []
  | v :: rest => bsonValToJson v :: bsonElemsToJson rest

def bsonValToJson : BVal → String
  | .null => "null"
  | .undefined => "undefined"
  | .str s => "\"" ++ s ++ "\""
  | .i32 n => toString n
  | .i64 n => toString n
  | .dbl x => toString x
  | .dec128 s => s
  | .boolean b => cond b "true" "false"
  | .date ms => toString ms
  | .oid hex => "\"" ++ hex ++ "\""
  | .binary => "<binary>"
  | .regex p o => "/" ++ p ++ "/" ++ o
  | .code s => s
  | .codeWScope s => s
  | .symbol s => s
  | .tstamp t i => toString t ++ ":" ++ toString i
  | .dbPointer => "<dbpointer>"
  | .minKey => "<minkey>"
  | .maxKey => "<maxkey>"
  | .arr elems => bsonArrToJson elems
  | .doc fields => bsonToJson fields
end

/-- `BSONElementToValue` (src/mongo_schema_inference.cpp:458-533): convert
    one element to a DuckDB value of the scalar target type (no
    compatibility check: unconvertible sources yield the target's zero
    value, unhandled targets yield NULL). -/
def bsonElementToValue (element : BVal) (targetType : LType) : Val :=
  match element with
  | .null => .nullOf targetType
  | _ =>
    match targetType with
    | .varchar =>
      .str (match element with
        | .str s => s
        | .oid hex => hex
        | .doc fields => normalizeJson (bsonToJson fields)
        | .arr elems => normalizeJson (bsonArrToJson elems)
        | _ => "<unknown>")
    | .bigint =>
      .int (match element with
        | .i32 n => n
        | .i64 n => n
        | .dbl x => doubleToInt64 x
        | _ => 0)
    | .double =>
      .dbl (match element with
        | .dbl x => x
        | .i32 n => n
        | .i64 n => n
        | _ => 0)
    | .boolean =>
      .boolean (match element with
        | .boolean b => b
        | _ => false)
    | .date =>
      .dateV (match element with
        | .date ms => epochMsToDateDays ms
        | _ => 0)
    | .timestamp =>
      .tsV (match element with
        | .date ms => epochMsToMicros ms
        | _ => 0)
    | _ => .nullOf targetType

/-- `BSONDocumentToStruct` (src/mongo_schema_inference.cpp:536-557). -/
def bsonDocumentToStruct (doc : BDoc) (structType : LType) : Val :=
  match structType with
  | .struct fields =>
    .strct (.struct fields)
      ((fields.toList).map (fun ft =>
        match bdocGet doc ft.1 with
        | none => .nullOf ft.2
        | some .null => .nullOf ft.2
        | some el => bsonElementToValue el ft.2))
  | t => .nullOf t

mutual
/-- `GetBSONArrayDepth` (src/mongo_schema_inference.cpp:559-579): maximum
    element nesting depth, cut off at `max_depth` (10 at every call site). -/
def getBSONArrayDepth (elems : List BVal) (maxDepth : Nat) : Nat :=
  if maxDepth = 0 ∨ elems.isEmpty then 0
  else bsonDepthLoop elems maxDepth

/-- The element loop of `GetBSONArrayDepth`. -/
def bsonDepthLoop (elems : List BVal) (maxDepth : Nat) : Nat :=
  match elems with
  | [] => 0
  | e :: rest =>
    let d :=
      match e with
      | .arr nested => 1 + getBSONArrayDepth nested (maxDepth - 1)
      | _ => 1
    max d (bsonDepthLoop rest maxDepth)
end

/-- The scalar-element switch of `BSONArrayToList`
    (src/mongo_schema_inference.cpp:637-659, 693-715, 770-793): unhandled
    element kinds fall back to the NULL value of the given type. -/
def arrayScalarElemVal (e : BVal) (fallback : LType) : Val :=
  match e with
  | .str s => .str s
  | .i32 n => .int n
  | .i64 n => .int n
  | .dbl x => .dbl x
  | .boolean b => .boolean b
  | _ => .nullOf fallback

/-- The base-type loop of the shallow branch
    (src/mongo_schema_inference.cpp:606-611): strip up to `k` LIST layers. -/
def stripListLayers : LType → Nat → LType
  | t, 0 => t
  | t, k + 1 =>
    if t.isList then stripListLayers (listChildType t) k
    else stripListLayers t k

/-- The re-boxing loop (src/mongo_schema_inference.cpp:682-688, 717-724):
    wrap a value in `k` one-element lists, each typed by the value below. -/
def wrapVal : Nat → Val → Val
  | 0, v => v
  | k + 1, v => wrapVal k (.list v.typeOf [v])

mutual
/-- `BSONArrayToList` (src/mongo_schema_inference.cpp:591-810): convert a
    BSON array to a DuckDB LIST value of the declared type, re-boxing
    shallower arrays and refusing deeper ones.  `tryCast` stands for
    `Value::DefaultTryCastAs`.  (The `actual_nested_type` local of the
    source, computed on lines 613-617, is never read and is omitted.) -/
def bsonArrayToList (tryCast : Val → LType → Option Val) (elems : List BVal)
    (listType : LType) : Val :=
  match listType with
  | .list childType =>
    let expectedDepth := getListTypeDepth (.list childType)
    let actualDepth := getBSONArrayDepth elems 10
    if actualDepth < expectedDepth then
      let baseType := stripListLayers childType (expectedDepth - 1)
      let depthDiff := expectedDepth - actualDepth
      let listValues := elems.map (fun e =>
        match e with
        | .null => Val.nullOf childType
        | .arr nested =>
          let nestedListValues := nested.map (fun ne =>
            match ne with
            | .null => Val.nullOf baseType
            | _ =>
              match tryCast (arrayScalarElemVal ne baseType) baseType with
              | some cv => cv
              | none => Val.nullOf baseType)
          match mkList baseType nestedListValues with
          | none => Val.nullOf childType
          | some nestedValue => wrapVal depthDiff nestedValue
        | _ => wrapVal depthDiff (arrayScalarElemVal e baseType))
      match mkList childType listValues with
      | some v => v
      | none => Val.nullOf (.list childType)
    else if actualDepth > expectedDepth then Val.nullOf (.list childType)
    else
      match mkList childType
          (bsonArrayEqualDepthElems tryCast elems childType) with
      | some v => v
      | none => Val.nullOf (.list childType)
  | t => Val.nullOf t

/-- The element loop of the depth-equal branch
    (src/mongo_schema_inference.cpp:742-803). -/
def bsonArrayEqualDepthElems (tryCast : Val → LType → Option Val)
    (elems : List BVal) (childType : LType) : List Val :=
  match elems with
  | [] => []
  | e :: rest =>
    (match childType, e with
     | _, .null => Val.nullOf childType
     | .struct fs, .doc d => bsonDocumentToStruct d (.struct fs)
     | .list ct2, .arr nested =>
       let expectedNested := getListTypeDepth (.list ct2)
       let actualNested := getBSONArrayDepth nested 10
       if actualNested ≠ expectedNested then
         if actualNested < expectedNested then
           bsonArrayToList tryCast nested (.list ct2)
         else Val.nullOf (.list ct2)
       else bsonArrayToList tryCast nested (.list ct2)
     | _, _ =>
       if childType.isList then Val.nullOf childType
       else
         match tryCast (arrayScalarElemVal e childType) childType with
         | some cv => cv
         | none => Val.nullOf childType) ::
      bsonArrayEqualDepthElems tryCast rest childType
end

/-- The cast that returns a value unchanged when it already has the target
    type and fails otherwise.  `Value::DefaultTryCastAs` agrees with it on
    every cast this converter performs on the concrete inputs below (the
    values handed to it are already of the target type, or are of an
    unrelated type with no default cast), so it instantiates the
    `CastContract` parameter for concrete evaluation. -/
def valueIdCast (v : Val) (t : LType) : Option Val :=
  if v.typeOf == t then some v else none

theorem valueIdCast_contract : CastContract valueIdCast := by
  intro v t w h
  unfold valueIdCast at h
  split at h
  case isTrue hc => cases h; exact of_decide_eq_true hc
  case isFalse hc => cases h

/-- `GetBSONTypeName` (src/mongo_schema_inference.cpp:160-207). -/
def getBSONTypeName : BVal → String
  | .dbl _ => "double"
  | .str _ => "string"
  | .doc _ => "document"
  | .arr _ => "array"
  | .binary => "binary"
  | .undefined => "undefined"
  | .oid _ => "objectId"
  | .boolean _ => "bool"
  | .date _ => "date"
  | .null => "null"
  | .regex _ _ => "regex"
  | .dbPointer => "dbPointer"
  | .code _ => "javascript"
  | .symbol _ => "symbol"
  | .codeWScope _ => "javascriptWithScope"
  | .i32 _ => "int32"
  | .tstamp _ _ => "timestamp"
  | .i64 _ => "int64"
  | .dec128 _ => "decimal128"
  | .minKey => "minKey"
  | .maxKey => "maxKey"

/-- `IsBSONTypeCompatible` (src/mongo_schema_inference.cpp:1120-1160). -/
def isBSONTypeCompatible (b : BVal) (t : LType) : Bool :=
  match b with
  | .null => true
  | .undefined => true
  | _ =>
    match t with
    | .varchar => true
    | .bigint | .integer | .smallint | .tinyint | .hugeint =>
      (match b with
       | .i32 _ => true | .i64 _ => true | .dbl _ => true | .dec128 _ => true
       | _ => false)
    | .double | .float =>
      (match b with
       | .dbl _ => true | .i32 _ => true | .i64 _ => true | .dec128 _ => true
       | _ => false)
    | .boolean => (match b with | .boolean _ => true | _ => false)
    | .date | .timestamp | .timestampTz =>
      (match b with | .date _ => true | _ => false)
    | .blob => (match b with | .binary => true | _ => false)
    | .list _ => (match b with | .arr _ => true | _ => false)
    | .struct _ | .map _ => (match b with | .doc _ => true | _ => false)
    | _ => true

/-- Schema-enforcement modes (`SchemaMode`, mongo_table_function.hpp). -/
inductive SchemaMode where
  | permissive
  | dropmalformed
  | failfast
deriving Repr, DecidableEq

/-- The payload of a `failfast` schema-violation error: the document `_id`,
    the field, the expected type name and the observed BSON type name
    (src/mongo_schema_inference.cpp:1265-1268). -/
structure SchemaViolationError where
  docId : String
  field : String
  expected : String
  observed : String
deriving Repr, DecidableEq

/-- The document-id extraction for the error context
    (src/mongo_schema_inference.cpp:1256-1264). -/
def docIdOf (doc : BDoc) : String :=
  match bdocGet doc "_id" with
  | some (.oid hex) => hex
  | some (.str s) => s
  | _ => "<unknown>"

/-- One output cell of a materialized row: never written, set to NULL, or
    set to a value. -/
inductive CellState where
  | unset
  | nullCell
  | val (v : Val)
deriving Repr

/-- Outcome of materializing one column. -/
inductive ColOutcome where
  | cell (c : CellState)
  | drop
  | fail (e : SchemaViolationError)
deriving Repr

/-- `handleSchemaViolation` (src/mongo_schema_inference.cpp:1244-1279):
    without an explicit schema it returns immediately (leaving the cell
    untouched); otherwise `failfast` throws, `dropmalformed` stops the row,
    and `permissive` sets the cell to NULL. -/
def handleSchemaViolation (doc : BDoc) (mode : SchemaMode)
    (hasExplicit : Bool) (field expected : String) (observed : BVal) :
    ColOutcome :=
  if ¬hasExplicit then .cell .unset
  else
    match mode with
    | .failfast =>
      .fail ⟨docIdOf doc, field, expected, getBSONTypeName observed⟩
    | .dropmalformed => .drop
    | .permissive => .cell .nullCell

/-- `std::getline(iss, segment, sep)` tokenization: split on `sep`, with no
    empty token after a trailing separator and no token for empty input. -/
def getlineAux (sep : Char) : List Char → List Char → List String
  | [], cur => [⟨cur.reverse⟩]
  | c :: rest, cur =>
    if c = sep then
      (⟨cur.reverse⟩ : String) ::
        (match rest with
         | [] => []
         | _ => getlineAux sep rest [])
    else getlineAux sep rest (c :: cur)

def getlineSegs (sep : Char) (s : String) : List String :=
  match s.data with
  | [] => []
  | l => getlineAux sep l []

/-- The segment walk shared by `getElementByMongoPath` and
    `getElementByPath` (src/mongo_schema_inference.cpp:1281-1366): a
    missing key or a non-document middle segment yields no element; the
    last segment's element is returned even if null. -/
def navigateSegs (doc : BDoc) : List String → Option BVal
  | [] => none
  | [seg] => bdocGet doc seg
  | seg :: rest =>
    match bdocGet doc seg with
    | some (.doc inner) => navigateSegs inner rest
    | _ => none

/-- `getElementByMongoPath` (dot-separated path). -/
def getElementByMongoPath (doc : BDoc) (path : String) : Option BVal :=
  navigateSegs doc (getlineSegs '.' path)

/-- `getElementByPath` (underscore-separated fallback path). -/
def getElementByPath (doc : BDoc) (path : String) : Option BVal :=
  navigateSegs doc (getlineSegs '_' path)

/-- `getArrayByMongoPath` (src/mongo_schema_inference.cpp:1367-1409):
    navigate the dotted path and return the array there, else empty. -/
def getArrayByMongoPath (doc : BDoc) (path : String) : List BVal :=
  match navigateSegs doc (getlineSegs '.' path) with
  | some (.arr elems) => elems
  | _ => []

/-- The walk of `getArrayByPath` (src/mongo_schema_inference.cpp:1411-1436):
    underscore segments, returning the *first* array met along the walk. -/
def getArrayByPathGo (current : BDoc) : List String → List BVal
  | [] => []
  | seg :: rest =>
    match bdocGet current seg with
    | some (.doc inner) => getArrayByPathGo inner rest
    | some (.arr elems) => elems
    | _ => []

def getArrayByPath (doc : BDoc) (path : String) : List BVal :=
  getArrayByPathGo doc (getlineSegs '_' path)

/-- The VARCHAR rendering switch of `FlattenDocument`
    (src/mongo_schema_inference.cpp:1576-1622). -/
def bsonScalarToString : BVal → String
  | .str s => s
  | .oid hex => hex
  | .doc fields => normalizeJson (bsonToJson fields)
  | .arr elems => normalizeJson (bsonArrToJson elems)
  | .i32 n => toString n
  | .i64 n => toString n
  | .dbl x => toString x
  | .boolean b => cond b "true" "false"
  | .date ms => toString ms
  | .null => "null"
  | .binary => "<binary data>"
  | .undefined => "undefined"
  | .regex p o => "/" ++ p ++ "/" ++ o
  | .dbPointer => "<dbpointer>"
  | .code s => s
  | .codeWScope s => s
  | .symbol s => s
  | .tstamp t i => toString t ++ ":" ++ toString i
  | .dec128 s => s
  | _ => "<unknown type>"

/-- One column of the `FlattenDocument` loop
    (src/mongo_schema_inference.cpp:1440-1760): look up the source element
    (direct key, recorded Mongo path, or underscore fallback) and build the
    cell, routing scalar type mismatches through `handleSchemaViolation`. -/
def flattenColumn (tryCast : Val → LType → Option Val) (doc : BDoc)
    (pathMap : List (String × String)) (mode : SchemaMode)
    (hasExplicit : Bool) (name : String) (ty : LType) : ColOutcome :=
  match ty with
  | .list child =>
    let av : List BVal :=
      match bdocGet doc name with
      | some (.arr elems) => elems
      | _ =>
        match pathMap.find? (fun p => p.1 == name) with
        | some pr => getArrayByMongoPath doc pr.2
        | none => getArrayByPath doc name
    if av.isEmpty then
      let emptyList := Val.list child []
      if emptyList.typeOf ≠ LType.list child then
        match tryCast emptyList (.list child) with
        | some c => .cell (.val c)
        | none => .cell .nullCell
      else .cell (.val emptyList)
    else
      let lv := bsonArrayToList tryCast av (.list child)
      if lv.typeOf ≠ LType.list child then
        match tryCast lv (.list child) with
        | some c => .cell (.val c)
        | none => .cell .nullCell
      else .cell (.val lv)
  | .struct fs =>
    let structDoc? : Option BDoc :=
      match bdocGet doc name with
      | some (.doc sd) => some sd
      | _ =>
        match pathMap.find? (fun p => p.1 == name) with
        | some pr =>
          match getElementByMongoPath doc pr.2 with
          | some (.doc sd) => some sd
          | _ => none
        | none => none
    match structDoc? with
    | none => .cell (.val (.nullOf (.struct fs)))
    | some sd =>
      let sv := bsonDocumentToStruct sd (.struct fs)
      if sv.typeOf ≠ LType.struct fs then
        match tryCast sv (.struct fs) with
        | some c => .cell (.val c)
        | none => .cell .nullCell
      else .cell (.val sv)
  | _ =>
    let mongoFieldName :=
      match pathMap.find? (fun p => p.1 == name) with
      | some pr => pr.2
      | none => name
    let element : Option BVal :=
      if mongoFieldName.data.contains '.' then
        getElementByMongoPath doc mongoFieldName
      else
        match bdocGet doc mongoFieldName with
        | some el => some el
        | none => getElementByPath doc name
    match element with
    | none => .cell .nullCell
    | some .null => .cell .nullCell
    | some el =>
      match ty with
      | .varchar => .cell (.val (.str (bsonScalarToString el)))
      | .bigint =>
        if ¬isBSONTypeCompatible el .bigint then
          handleSchemaViolation doc mode hasExplicit name "BIGINT" el
        else
          .cell (.val (.int
            (match el with
             | .i32 n => n
             | .i64 n => n
             | .dbl x => doubleToInt64 x
             | _ => 0)))
      | .hugeint =>
        if ¬isBSONTypeCompatible el .hugeint then
          handleSchemaViolation doc mode hasExplicit name "HUGEINT" el
        else
          .cell (.val (.huge
            (match el with
             | .i32 n => n
             | .i64 n => n
             | .dbl x => doubleToInt64 x
             | .dec128 s => doubleToInt64 (decimal128ToDouble s)
             | _ => 0)))
      | .double =>
        if ¬isBSONTypeCompatible el .double then
          handleSchemaViolation doc mode hasExplicit name "DOUBLE" el
        else
          .cell (.val (.dbl
            (match el with
             | .dbl x => x
             | .i32 n => n
             | .i64 n => n
             | .dec128 s => decimal128ToDouble s
             | _ => 0)))
      | .boolean =>
        if ¬isBSONTypeCompatible el .boolean then
          handleSchemaViolation doc mode hasExplicit name "BOOLEAN" el
        else
          .cell (.val (.boolean
            (match el with
             | .boolean b => b
             | _ => false)))
      | .date =>
        if ¬isBSONTypeCompatible el .date then
          handleSchemaViolation doc mode hasExplicit name "DATE" el
        else
          .cell (.val (.dateV
            (match el with
             | .date ms => epochMsToDateDays ms
             | _ => 0)))
      | .timestamp =>
        if ¬isBSONTypeCompatible el .timestamp then
          handleSchemaViolation doc mode hasExplicit name "TIMESTAMP" el
        else
          .cell (.val (.tsV
            (match el with
             | .date ms => epochMsToMicros ms
             | _ => 0)))
      | _ => .cell .nullCell

/-- Result of materializing one row: completed (`FlattenDocument` returned
    true), dropped part-way (`dropmalformed` returned false: the violating
    column and everything after it left unwritten), or a `failfast` throw. -/
inductive RowResult where
  | ok (cells : List CellState)
  | dropped (cells : List CellState)
  | fail (e : SchemaViolationError)
deriving Repr

/-- `FlattenDocument` (src/mongo_schema_inference.cpp:1236-1764), over the
    requested columns in order (name/type pairs). -/
def flattenDocument (tryCast : Val → LType → Option Val) (doc : BDoc)
    (columns : List (String × LType)) (pathMap : List (String × String))
    (mode : SchemaMode) (hasExplicit : Bool) : RowResult :=
  match columns with
  | [] => .ok []
  | (name, ty) :: rest =>
    match flattenColumn tryCast doc pathMap mode hasExplicit name ty with
    | .fail e => .fail e
    | .drop => .dropped []
    | .cell c =>
      match flattenDocument tryCast doc rest pathMap mode hasExplicit with
      | .ok cs => .ok (c :: cs)
      | .dropped cs => .dropped (c :: cs)
      | .fail e => .fail e

/-- Whether a BSON value is an array (used to state flatness of arrays). -/
def BVal.isArr : BVal → Bool
  | .arr _ => true
  | _ => false

/-- Whether a BSON value is the BSON null. -/
def BVal.isNull : BVal → Bool
  | .null => true
  | _ => false

/-- `k` nested LIST wrappers around a type. -/
def nestList : Nat → LType → LType
  | 0, t => t
  | k + 1, t => nestList k (.list t)

theorem nestList_succ (k : Nat) (t : LType) :
    nestList (k + 1) t = .list (nestList k t) := by
  induction k generalizing t with
  | zero => rfl
  | succ k ih =>
    rw [show nestList (k + 1 + 1) t = nestList (k + 1) (.list t) from rfl, ih]
    rfl

theorem getListTypeDepth_nestList (k : Nat) (B : LType)
    (hB : B.isList = false) : getListTypeDepth (nestList k B) = k := by
  induction k with
  | zero => cases B <;> first | rfl | simp [LType.isList] at hB
  | succ k ih => rw [nestList_succ, getListTypeDepth, ih]

theorem stripListLayers_nestList (k : Nat) (B : LType) :
    stripListLayers (nestList k B) k = B := by
  induction k with
  | zero => rfl
  | succ k ih =>
    rw [nestList_succ]
    simp only [stripListLayers, LType.isList, listChildType, if_pos]
    exact ih

theorem wrapVal_typeOf (k : Nat) (v : Val) :
    (wrapVal k v).typeOf = nestList k v.typeOf := by
  induction k generalizing v with
  | zero => rfl
  | succ k ih =>
    rw [show wrapVal (k + 1) v = wrapVal k (.list v.typeOf [v]) from rfl, ih]
    rfl

theorem mkList_some (ct : LType) (vs : List Val) (r : Val)
    (h : mkList ct vs = some r) :
    r = .list ct vs ∧ ∀ v ∈ vs, v.typeOf = ct := by
  unfold mkList at h
  split at h
  case isTrue hall =>
    cases h
    simp only [List.all_eq_true, beq_iff_eq] at hall
    exact ⟨rfl, hall⟩
  case isFalse => cases h

theorem mkList_all (ct : LType) (vs : List Val)
    (h : ∀ v ∈ vs, v.typeOf = ct) : mkList ct vs = some (.list ct vs) := by
  unfold mkList
  rw [if_pos]
  simp only [List.all_eq_true, beq_iff_eq]
  exact h

theorem bsonDepthLoop_flat (elems : List BVal)
    (h : ∀ e ∈ elems, e.isArr = false) (hne : elems ≠ []) :
    bsonDepthLoop elems 10 = 1 := by
  induction elems with
  | nil => exact absurd rfl hne
  | cons e rest ih =>
    have he : e.isArr = false := h e (List.mem_cons_self e rest)
    rw [bsonDepthLoop]
    · cases rest with
      | nil =>
        rw [bsonDepthLoop]
        decide
      | cons f rest2 =>
        rw [ih (fun x hx => h x (List.mem_cons_of_mem e hx)) (by simp)]
        decide
    · intro nested hfalse
      subst hfalse
      simp [BVal.isArr] at he

theorem getBSONArrayDepth_flat (elems : List BVal)
    (h : ∀ e ∈ elems, e.isArr = false) (hne : elems ≠ []) :
    getBSONArrayDepth elems 10 = 1 := by
  rw [getBSONArrayDepth]
  rw [if_neg (by simp [hne])]
  exact bsonDepthLoop_flat elems h hne

theorem matchMkList_cases (ct : LType) (vs : List Val) (f : Val)
    (hf : f = (match mkList ct vs with
               | some v => v
               | none => Val.nullOf (.list ct))) :
    f = Val.nullOf (.list ct) ∨
      ∃ ws, f = Val.list ct ws ∧ ∀ v ∈ ws, v.typeOf = ct := by
  cases hmk : mkList ct vs with
  | none => rw [hmk] at hf; exact Or.inl hf
  | some r =>
    rw [hmk] at hf
    obtain ⟨hr, hall⟩ := mkList_some ct vs r hmk
    exact Or.inr ⟨vs, by rw [hf, hr], hall⟩

/-- C6: `BSONArrayToList` under any cast satisfying the `CastContract`:
    (1) the result is NULL of the declared LIST type or a LIST value whose
    element values all have exactly the declared child type; (2) a source
    array strictly deeper than the declared type yields NULL; (3) a
    non-empty flat array of scalars whose converted values have the base
    type, under a uniformly nested LIST type of positive extra depth, is
    converted elementwise by re-boxing each scalar in `d` singleton lists
    (BSON nulls becoming child-typed NULLs).  The original claim's
    stronger reading — that every shallower array is re-boxed to a
    depth-matching value, NULL arising only when the actual depth exceeds
    the declared depth — is refuted by
    `bsonArrayToList_c6_counterexample`. -/
theorem bsonArrayToList_c6_depth (tryCast : Val → LType → Option Val)
    (elems : List BVal) (ct : LType) :
    (bsonArrayToList tryCast elems (.list ct) = Val.nullOf (.list ct) ∨
      ∃ vs, bsonArrayToList tryCast elems (.list ct) = Val.list ct vs ∧
        ∀ v ∈ vs, v.typeOf = ct) ∧
    (getListTypeDepth (.list ct) < getBSONArrayDepth elems 10 →
      bsonArrayToList tryCast elems (.list ct) = Val.nullOf (.list ct)) ∧
    (∀ d B, ct = nestList d B → B.isList = false → 0 < d → elems ≠ [] →
      (∀ e ∈ elems, e.isArr = false) →
      (∀ e ∈ elems, e.isNull = false →
        (arrayScalarElemVal e B).typeOf = B) →
      bsonArrayToList tryCast elems (.list ct) =
        Val.list ct (elems.map (fun e =>
          if e.isNull then Val.nullOf ct
          else wrapVal d (arrayScalarElemVal e B)))) := by
  refine ⟨?_, ?_, ?_⟩
  · rw [bsonArrayToList]
    split
    · exact matchMkList_cases _ _ _ rfl
    · split
      · exact Or.inl rfl
      · exact matchMkList_cases _ _ _ rfl
  · intro h
    rw [bsonArrayToList]
    rw [if_neg (by omega), if_pos (by omega)]
  · intro d B hct hB hd hne hflat hty
    subst hct
    have hD : getBSONArrayDepth elems 10 = 1 :=
      getBSONArrayDepth_flat elems hflat hne
    have hE : getListTypeDepth (LType.list (nestList d B)) = d + 1 := by
      rw [getListTypeDepth, getListTypeDepth_nestList d B hB]
    rw [bsonArrayToList]
    rw [if_pos (by rw [hD, hE]; omega)]
    rw [hD, hE]
    simp only [Nat.add_sub_cancel]
    rw [stripListLayers_nestList d B]
    have hmap : (elems.map (fun e =>
        match e with
        | BVal.null => Val.nullOf (nestList d B)
        | BVal.arr nested =>
          (match mkList B (List.map (fun ne =>
              match ne with
              | BVal.null => Val.nullOf B
              | _ => match tryCast (arrayScalarElemVal ne B) B with
                     | some cv => cv
                     | none => Val.nullOf B) nested) with
           | none => Val.nullOf (nestList d B)
           | some nestedValue => wrapVal d nestedValue)
        | _ => wrapVal d (arrayScalarElemVal e B))) =
        elems.map (fun e =>
          if e.isNull then Val.nullOf (nestList d B)
          else wrapVal d (arrayScalarElemVal e B)) := by
      apply List.map_congr_left
      intro e he
      have hA : e.isArr = false := hflat e he
      cases e <;> simp [BVal.isArr, BVal.isNull] at hA ⊢
    rw [hmap]
    rw [mkList_all (nestList d B) _ ?_]
    intro v hv
    simp only [List.mem_map] at hv
    obtain ⟨e, he, rfl⟩ := hv
    by_cases hn : e.isNull = true
    · simp [hn, Val.typeOf]
    · simp only [Bool.not_eq_true] at hn
      simp only [hn, Bool.false_eq_true, if_false]
      rw [wrapVal_typeOf, hty e he hn]

/-- C6 counterexample: the mixed-depth source array `[[1], 2]` under the
    declared type LIST(LIST(LIST(BIGINT))) has actual depth 2, strictly
    less than the declared depth 3, yet `BSONArrayToList` stores NULL for
    the whole list: the per-element re-boxing wraps every element the same
    number of times, so the scalar element 2 ends up one level short and
    `Value::LIST` fails, which the claim says can happen only when the
    actual depth exceeds the declared depth. -/
theorem bsonArrayToList_c6_counterexample :
    getBSONArrayDepth [BVal.arr [BVal.i32 1], BVal.i32 2] 10 = 2 ∧
    getListTypeDepth (.list (.list (.list .bigint))) = 3 ∧
    bsonArrayToList valueIdCast [BVal.arr [BVal.i32 1], BVal.i32 2]
        (.list (.list (.list .bigint))) =
      Val.nullOf (.list (.list (.list .bigint))) := by
  refine ⟨?_, rfl, ?_⟩
  · simp [getBSONArrayDepth, bsonDepthLoop]
  · simp [bsonArrayToList, getBSONArrayDepth, bsonDepthLoop, getListTypeDepth,
      stripListLayers, listChildType, LType.isList, arrayScalarElemVal,
      valueIdCast, Val.typeOf, mkList, wrapVal]

theorem bsonArrayToList_c6_depth_witness :
    bsonArrayToList valueIdCast [BVal.arr [BVal.arr [BVal.i32 1]]]
        (.list .bigint) = Val.nullOf (.list .bigint) ∧
    bsonArrayToList valueIdCast [BVal.i32 1, BVal.i32 2]
        (.list (.list .bigint)) =
      Val.list (.list .bigint)
        [Val.list .bigint [Val.int 1], Val.list .bigint [Val.int 2]] := by
  constructor
  · exact (bsonArrayToList_c6_depth valueIdCast _ _).2.1
      (by simp [getBSONArrayDepth, bsonDepthLoop, getListTypeDepth])
  · have h := (bsonArrayToList_c6_depth valueIdCast [BVal.i32 1, BVal.i32 2]
      (.list .bigint)).2.2 1 .bigint rfl rfl (by decide) (by simp)
      (by decide) (by decide)
    simpa [wrapVal, arrayScalarElemVal, BVal.isNull, Val.typeOf,
      nestList] using h

/-- C5: the schema-mode matrix of `FlattenDocument` on a document whose
    field `a` holds a string while column `a` is declared BIGINT.  A
    `failfast` error is raised exactly when an explicit schema was given,
    and it carries the document `_id`, the field, the expected and the
    observed type; `permissive` with an explicit schema writes NULL and
    `dropmalformed` drops the row.  But with an inferred (non-explicit)
    schema the violating cell is left *unwritten* in every mode — under
    `permissive` the column receives neither a value nor NULL, because
    `handleSchemaViolation` returns before `FlatVector::SetNull` when
    `has_explicit_schema` is false. -/
theorem flattenDocument_c5_modes :
    (flattenDocument valueIdCast
        [("_id", BVal.oid "aabbccddeeff001122334455"), ("a", BVal.str "x")]
        [("a", LType.bigint)] [] .permissive false =
      .ok [CellState.unset]) ∧
    (flattenDocument valueIdCast
        [("_id", BVal.oid "aabbccddeeff001122334455"), ("a", BVal.str "x")]
        [("a", LType.bigint)] [] .failfast true =
      .fail ⟨"aabbccddeeff001122334455", "a", "BIGINT", "string"⟩) ∧
    (flattenDocument valueIdCast
        [("_id", BVal.oid "aabbccddeeff001122334455"), ("a", BVal.str "x")]
        [("a", LType.bigint)] [] .failfast false =
      .ok [CellState.unset]) ∧
    (flattenDocument valueIdCast
        [("_id", BVal.oid "aabbccddeeff001122334455"), ("a", BVal.str "x")]
        [("a", LType.bigint)] [] .permissive true =
      .ok [CellState.nullCell]) ∧
    (flattenDocument valueIdCast
        [("_id", BVal.oid "aabbccddeeff001122334455"), ("a", BVal.str "x")]
        [("a", LType.bigint)] [] .dropmalformed true =
      .dropped []) :=
  ⟨rfl, rfl, rfl, rfl, rfl⟩

/-- The per-call state of the scan (`MongoScanState`,
    mongo_table_function.hpp:60-90): the documents the open cursor still
    holds, the projected column names/types, and the finished flag.  The
    cursor of src/ is always `collection.find(query_filter, opts)`
    (mongo_table_function.cpp:1935): `MongoScanInitLocal` never reads the
    bind data's `pipeline_json`, so for an empty collection `remaining`
    is empty no matter what pipeline the optimizer installed. -/
structure MongoScanStateM where
  remaining : List BDoc
  requestedNames : List String
  requestedTypes : List LType
  finished : Bool

/-- One `MongoScanFunction` call (src/mongo_table_function.cpp:1941-2014):
    the emitted chunk (one entry per output row) and the updated state.
    `flattenRow` stands for the per-document `FlattenDocument` write of
    the same file (lines 856-1290).  The COUNT(*) drain branch (lines
    1962-1976, taken when the engine asks for one column while more were
    projected) only advances the cursor and sets the cardinality: its
    rows carry no written cells. -/
def mongoScanFunction (flattenRow : List (String × LType) → BDoc → List CellState)
    (bindColumns : List (String × LType)) (outputColumnCount maxCount : Nat)
    (st : MongoScanStateM) : List (List CellState) × MongoScanStateM :=
  if st.finished then ([], st)
  else if outputColumnCount = 1 ∧ 1 < st.requestedNames.length then
    let k := min maxCount st.remaining.length
    ( List.replicate k [],
      { remaining := st.remaining.drop k
        requestedNames := []
        requestedTypes := []
        finished := decide (st.remaining.length ≤ maxCount) } )
  else
    let columns :=
      if st.requestedNames.isEmpty then bindColumns
      else st.requestedNames.zip st.requestedTypes
    let numCols := min columns.length outputColumnCount
    let docs := st.remaining.take maxCount
    ( docs.map (fun d => flattenRow (columns.take numCols) d),
      { st with
          remaining := st.remaining.drop maxCount
          finished := decide (st.remaining.length ≤ maxCount) } )

/-- C2: whenever the cursor holds no documents — in particular for the
    COUNT(*) rewrite over an empty collection, whose `$count` pipeline the
    src/ scan never executes because `MongoScanInitLocal` opens a plain
    find cursor — a `MongoScanFunction` call emits an empty chunk: zero
    rows, never the single row holding 0 that the claim requires. -/
theorem mongoScan_c2_empty_cursor
    (flattenRow : List (String × LType) → BDoc → List CellState)
    (bindColumns : List (String × LType)) (outputColumnCount maxCount : Nat)
    (st : MongoScanStateM) (h : st.remaining = []) :
    (mongoScanFunction flattenRow bindColumns outputColumnCount maxCount
      st).1 = [] := by
  unfold mongoScanFunction
  split
  · rfl
  · split
    · simp [h]
    · simp [h]

theorem mongoScan_c2_empty_cursor_witness :
    ([] : List BDoc) = [] ∧
    (mongoScanFunction (fun _ _ => []) [("count", LType.bigint)] 1 2048
      { remaining := [], requestedNames := ["_id", "count"],
        requestedTypes := [.varchar, .bigint], finished := false }).1 = [] :=
  ⟨rfl,
    mongoScan_c2_empty_cursor (fun _ _ => []) [("count", LType.bigint)]
      1 2048
      { remaining := [], requestedNames := ["_id", "count"],
        requestedTypes := [.varchar, .bigint], finished := false } rfl⟩

/-- ASCII `tolower`, as `StringUtil::CharacterToLower` applies it. -/
def asciiLower (c : Char) : Char :=
  if 'A' ≤ c ∧ c ≤ 'Z' then Char.ofNat (c.toNat + 32) else c

/-- `StringUtil::CIEquals`: ASCII case-insensitive string equality. -/
def ciEquals (a b : String) : Bool :=
  a.data.map asciiLower == b.data.map asciiLower

/-- A column binding of the planner (`ColumnBinding`). -/
structure ColumnBinding where
  tableIndex : Nat
  columnIndex : Nat
deriving Repr, DecidableEq

/-- A planner expression as the TopN rewriter inspects it: a bound column
    reference with its `GetName()`, or any other expression class (cast,
    function, constant, ...), on which the column resolution fails. -/
inductive PExpr where
  | colRef (binding : ColumnBinding) (name : String)
  | otherExpr (name : String)
deriving Repr, DecidableEq

/-- `Expression::GetName()`. -/
def PExpr.getName : PExpr → String
  | .colRef _ name => name
  | .otherExpr name => name

/-- `OrderType` of a TopN key. -/
inductive OrderKind where
  | ascending
  | descending
deriving Repr, DecidableEq

/-- The fields of `MongoScanData` the TopN rewriter reads or writes
    (mongo_table_function.hpp:20-45): `filterQuery` holds the parsed manual
    `filter := '...'` parameter (`none` when that string is empty),
    `complexFilterExpr` the stored complex-filter document (`none` when its
    view is empty), `pipelineJson` the aggregation pipeline the rewrite
    installs. -/
structure MongoBind where
  columnNames : List String
  filterQuery : Option BDoc
  complexFilterExpr : Option BDoc
  pipelineJson : String
deriving Repr

/-- A `LogicalGet` as the rewriter sees it.  `bind` is `none` when
    `bind_data` is absent or not a `MongoScanData` (the `dynamic_cast`
    fails).  `tableFiltersDoc` is `none` when `get.table_filters` is empty
    and otherwise holds the document `ConvertFiltersToMongoQuery` produces
    for it (the conversion itself is settled under C1; the repository links
    two same-named definitions of it, so the rewriter's view is the
    converted document).  `namedPipeline` models
    `named_parameters["pipeline"]`. -/
structure GetNode where
  tableIndex : Nat
  functionName : String
  bind : Option MongoBind
  tableFiltersDoc : Option BDoc
  namedPipeline : Option String
deriving Repr

/-- The logical-plan shapes `RewriteMongoTopN` distinguishes. -/
inductive LOp where
  | topn (orders : List (Option PExpr × OrderKind)) (limit offset : Nat)
      (children : List LOp)
  | projection (tableIndex : Nat) (expressions : List PExpr)
      (children : List LOp)
  | getOp (g : GetNode)
  | otherOp (children : List LOp)
deriving Repr

/-- The projection-walk loop of `ResolveColumnRefToScan`
    (src/mongo_optimizer.cpp:172-199): follow the binding through each
    projection that mentions its table index; a column index out of range
    or a non-column-ref projection expression fails. -/
def resolveThroughProjections (binding : ColumnBinding) :
    List (Nat × List PExpr) → Option ColumnBinding
  | [] => some binding
  | (tidx, exprs) :: rest =>
    if binding.tableIndex = tidx then
      match exprs.get? binding.columnIndex with
      | some (.colRef b2 _) => resolveThroughProjections b2 rest
      | _ => none
    else resolveThroughProjections binding rest

/-- `ResolveColumnRefToScan` (src/mongo_optimizer.cpp:172-199). -/
def resolveColumnRefToScan (expr : PExpr)
    (projections : List (Nat × List PExpr)) (scanTableIndex : Nat) :
    Option Nat :=
  match expr with
  | .colRef binding _ =>
    (match resolveThroughProjections binding projections with
     | some b =>
       if b.tableIndex = scanTableIndex then some b.columnIndex else none
     | none => none)
  | .otherExpr _ => none

/-- `ResolveColumnRefToScanWithName` (src/mongo_optimizer.cpp:201-222):
    accept the resolved index when its column name matches the
    expression's name case-insensitively or the name is qualified
    (contains a dot); otherwise fall back to the first column whose name
    matches. -/
def resolveColumnRefToScanWithName (expr : PExpr)
    (projections : List (Nat × List PExpr)) (data : MongoBind)
    (scanTableIndex : Nat) : Option Nat :=
  match resolveColumnRefToScan expr projections scanTableIndex with
  | none => none
  | some colIdx =>
    let exprName := expr.getName
    if (data.columnNames.get? colIdx).any (fun n => ciEquals n exprName) then
      some colIdx
    else if exprName.data.contains '.' then some colIdx
    else
      match data.columnNames.findIdx? (fun n => ciEquals n exprName) with
      | some i => some i
      | none => none

/-- `BuildMatchFromExistingFilters` (src/mongo_optimizer.cpp:118-158):
    collect the manual filter, the converted table-filter document (when
    non-empty) and the `$expr` wrapper of the complex filter, in that
    order; zero conjuncts give an empty document, one is returned as-is,
    several are folded under `$and`. -/
def buildMatchFromExistingFilters (g : GetNode) (data : MongoBind) : BDoc :=
  let conjuncts : List BDoc :=
    (match data.filterQuery with
     | some d => [d]
     | none => []) ++
    (match g.tableFiltersDoc with
     | some d => if d.isEmpty then [] else [d]
     | none => []) ++
    (match data.complexFilterExpr with
     | some e => [[("$expr", BVal.doc e)]]
     | none => [])
  match conjuncts with
  | [] => []
  | [c] => c
  | cs => [("$and", BVal.arr (cs.map BVal.doc))]

/-- `JoinJsonArray` (src/mongo_optimizer.cpp:101-113): render the stages
    with `bsoncxx::to_json` and join them in a JSON array. -/
def joinJsonArray (stages : List BDoc) : String :=
  "[" ++ String.intercalate "," (stages.map bsonToJson) ++ "]"

/-- `BuildTopNPipelineJson` (src/mongo_optimizer.cpp:281-302). -/
def buildTopNPipelineJson (g : GetNode) (data : MongoBind)
    (order : OrderKind) (limit : Nat) : String :=
  let matchDoc := buildMatchFromExistingFilters g data
  let stages : List BDoc :=
    (if matchDoc.isEmpty then []
     else [[("$match", BVal.doc matchDoc)]]) ++
    [[("$sort", BVal.doc
        [("_id", BVal.i32 (if order = OrderKind.ascending then 1 else -1))])]] ++
    [[("$limit", BVal.i64 (Int.ofNat limit))]]
  joinJsonArray stages

/-- Modelled from the spec's words, for comparison with
    `buildTopNPipelineJson`: the pipeline
    `[$match(existing filters) when non-empty, $sort({_id: +1 or -1}),
    $limit(k)]`. -/
def specTopNPipeline (matchDoc : BDoc) (order : OrderKind) (k : Nat) :
    List BDoc :=
  (if matchDoc.isEmpty then [] else [[("$match", BVal.doc matchDoc)]]) ++
  [[("$sort", BVal.doc
      [("_id", BVal.i32 (if order = OrderKind.ascending then 1 else -1))])]] ++
  [[("$limit", BVal.i64 (Int.ofNat k))]]

/-- The projection-chain walk of `RewriteMongoTopN`
    (src/mongo_optimizer.cpp:325-331): peel single-child projections,
    returning them outermost-first together with the node below. -/
def collectProjChain : LOp → List (Nat × List PExpr) × LOp
  | .projection tidx exprs [child] =>
    let (ps, leaf) := collectProjChain child
    ((tidx, exprs) :: ps, leaf)
  | n => ([], n)

/-- The bind replacement of a successful rewrite
    (src/mongo_optimizer.cpp:355-361): same plan below the TopN, with the
    scan's bind data replaced and `named_parameters["pipeline"]` set. -/
def replaceScanBind (newBind : MongoBind) (pj : String) : LOp → LOp
  | .projection tidx exprs [child] =>
    .projection tidx exprs [replaceScanBind newBind pj child]
  | .getOp g =>
    .getOp { g with bind := some newBind, namedPipeline := some pj }
  | n => n

/-- `RewriteMongoTopN` (src/mongo_optimizer.cpp:304-365).  The C++ mutates
    `node` in place only after every precondition has passed (all checks
    are on lines 305-351, all writes on 355-364); `none` therefore models
    `return false` with the plan untouched. -/
def rewriteMongoTopN (node : LOp) : Option LOp :=
  match node with
  | .topn orders limit offset children =>
    (match children with
     | [child] =>
       if offset ≠ 0 ∨ limit = 0 then none
       else
         match orders with
         | [(some oexpr, otype)] =>
           (match collectProjChain child with
            | (projections, .getOp g) =>
              if ¬ ciEquals g.functionName "mongo_scan" then none
              else
                match g.bind with
                | none => none
                | some bind =>
                  match resolveColumnRefToScanWithName oexpr projections
                      bind g.tableIndex with
                  | none => none
                  | some orderColIdx =>
                    if (bind.columnNames.get? orderColIdx).any
                        (fun n => ciEquals n "_id") then
                      let pj := buildTopNPipelineJson g bind otype limit
                      some (replaceScanBind
                        { bind with pipelineJson := pj } pj child)
                    else none
            | (_, _) => none)
         | _ => none
     | _ => none)
  | _ => none


theorem collectProjChain_replaceScanBind (nb : MongoBind) (pj : String) :
    ∀ child projs g, collectProjChain child = (projs, LOp.getOp g) →
      collectProjChain (replaceScanBind nb pj child) =
        (projs, LOp.getOp { g with bind := some nb, namedPipeline := some pj }) := by
  intro child
  induction child using collectProjChain.induct with
  | case1 tidx exprs c ps leaf hps ih =>
    intro projs g h
    rw [show collectProjChain (LOp.projection tidx exprs [c]) =
      ((tidx, exprs) :: (collectProjChain c).1, (collectProjChain c).2) from rfl,
      hps] at h
    simp only [Prod.mk.injEq] at h
    obtain ⟨rfl, hleaf⟩ := h
    subst hleaf
    have h2 := ih ps g hps
    rw [show replaceScanBind nb pj (LOp.projection tidx exprs [c]) =
      LOp.projection tidx exprs [replaceScanBind nb pj c] from rfl]
    rw [show collectProjChain (LOp.projection tidx exprs [replaceScanBind nb pj c]) =
      ((tidx, exprs) :: (collectProjChain (replaceScanBind nb pj c)).1,
        (collectProjChain (replaceScanBind nb pj c)).2) from rfl, h2]
  | case2 n hn =>
    intro projs g h
    have hred : collectProjChain n = ([], n) := by
      cases n with
      | projection t es children =>
        match children with
        | [] => rfl
        | [c] => exact absurd rfl (fun hfalse => hn t es c hfalse)
        | c1 :: c2 :: cs => rfl
      | topn o l f ch => rfl
      | getOp g2 => rfl
      | otherOp ch => rfl
    rw [hred] at h
    simp only [Prod.mk.injEq] at h
    obtain ⟨rfl, rfl⟩ := h
    rfl



theorem rewriteTopN_some_inversion (node out : LOp) (h : rewriteMongoTopN node = some out) :
    ∃ oexpr otype k child projs g bind idx,
      node = LOp.topn [(some oexpr, otype)] k 0 [child] ∧ k ≠ 0 ∧
      collectProjChain child = (projs, LOp.getOp g) ∧
      ciEquals g.functionName "mongo_scan" = true ∧
      g.bind = some bind ∧
      resolveColumnRefToScanWithName oexpr projs bind g.tableIndex = some idx ∧
      (bind.columnNames.get? idx).any (fun n => ciEquals n "_id") = true ∧
      out = replaceScanBind
        { bind with pipelineJson := buildTopNPipelineJson g bind otype k }
        (buildTopNPipelineJson g bind otype k) child := by
  cases node with
  | projection t es ch => simp [rewriteMongoTopN] at h
  | getOp g => simp [rewriteMongoTopN] at h
  | otherOp ch => simp [rewriteMongoTopN] at h
  | topn orders limit offset children =>
    cases children with
    | nil => simp [rewriteMongoTopN] at h
    | cons child rest =>
      cases rest with
      | cons c2 cs => simp [rewriteMongoTopN] at h
      | nil =>
        simp only [rewriteMongoTopN] at h
        split at h
        · cases h
        next hcond =>
          push_neg at hcond
          obtain ⟨hoff, hlim⟩ := hcond
          subst hoff
          split at h
          case _ oexpr otype =>
            split at h
            case _ projections leaf g heqChain =>
              split at h
              next hciNeg => cases h
              next hci =>
                rw [not_not] at hci
                split at h
                next => cases h
                next bind heqBind =>
                  split at h
                  next => cases h
                  next idx heqRes =>
                    split at h
                    next hany =>
                      injection h with hout
                      exact ⟨oexpr, otype, limit, child, leaf, g, bind, idx,
                        rfl, hlim, heqChain, hci, heqBind, heqRes, hany,
                        hout.symm⟩
                    next => cases h
            case _ => cases h
          case _ => cases h

/-- C7: the TopN rewrite.  (1) Every successful rewrite comes from a TopN
    node with offset 0, a non-zero limit and a single order key that is a
    column reference resolving through the projection chain to the `_id`
    column of a mongo_scan, and the result is the TopN's child with the
    scan's bind data replaced by one carrying the TopN pipeline;
    (2) that replacement keeps the projection chain and changes only the
    scan's bind data and pipeline parameter; (3) the installed pipeline is
    exactly `[$match(existing filters) when non-empty, $sort(_id up or
    down), $limit(k)]` (the spec-worded `specTopNPipeline`); (4)-(6) a
    non-zero offset, a zero limit, or more than one order key leave the
    plan unchanged (`none` = `return false` before any mutation). -/
theorem rewriteMongoTopN_c7 :
    (∀ node out, rewriteMongoTopN node = some out →
      ∃ oexpr otype k child projs g bind idx,
        node = LOp.topn [(some oexpr, otype)] k 0 [child] ∧ k ≠ 0 ∧
        collectProjChain child = (projs, LOp.getOp g) ∧
        ciEquals g.functionName "mongo_scan" = true ∧
        g.bind = some bind ∧
        resolveColumnRefToScanWithName oexpr projs bind g.tableIndex =
          some idx ∧
        (bind.columnNames.get? idx).any (fun n => ciEquals n "_id") = true ∧
        out = replaceScanBind
          { bind with pipelineJson := buildTopNPipelineJson g bind otype k }
          (buildTopNPipelineJson g bind otype k) child) ∧
    (∀ nb pj child projs g,
      collectProjChain child = (projs, LOp.getOp g) →
        collectProjChain (replaceScanBind nb pj child) =
          (projs,
            LOp.getOp { g with bind := some nb, namedPipeline := some pj })) ∧
    (∀ g bind otype k,
      buildTopNPipelineJson g bind otype k =
        joinJsonArray
          (specTopNPipeline (buildMatchFromExistingFilters g bind) otype k)) ∧
    (∀ orders k offset children, offset ≠ 0 →
      rewriteMongoTopN (.topn orders k offset children) = none) ∧
    (∀ orders offset children,
      rewriteMongoTopN (.topn orders 0 offset children) = none) ∧
    (∀ o1 o2 os k children,
      rewriteMongoTopN (.topn (o1 :: o2 :: os) k 0 children) = none) := by
  refine ⟨rewriteTopN_some_inversion, ?_, fun g bind otype k => rfl,
    ?_, ?_, ?_⟩
  · intro nb pj child projs g h
    exact collectProjChain_replaceScanBind nb pj child projs g h
  · intro orders k offset children hoff
    match children with
    | [] => rfl
    | [c] =>
      simp only [rewriteMongoTopN]
      rw [if_pos (Or.inl hoff)]
    | c1 :: c2 :: cs => rfl
  · intro orders offset children
    match children with
    | [] => rfl
    | [c] =>
      simp [rewriteMongoTopN]
    | c1 :: c2 :: cs => rfl
  · intro o1 o2 os k children
    match children with
    | [] => rfl
    | [c] =>
      simp only [rewriteMongoTopN]
      split
      · rfl
      · rcases o1 with ⟨oe, ot⟩
        cases oe <;> rfl
    | c1 :: c2 :: cs => rfl

/-- A demonstration plan: TopN(limit 10, offset 0, one ascending order key
    on a projected `_id`) over one projection over a mongo_scan of columns
    `_id`, `a` with no filters. -/
def topnDemoBind : MongoBind :=
  { columnNames := ["_id", "a"], filterQuery := none,
    complexFilterExpr := none, pipelineJson := "" }

def topnDemoGet : GetNode :=
  { tableIndex := 3, functionName := "mongo_scan",
    bind := some topnDemoBind, tableFiltersDoc := none,
    namedPipeline := none }

def topnDemoPlan : LOp :=
  .topn [(some (.colRef ⟨7, 0⟩ "_id"), .ascending)] 10 0
    [.projection 7 [.colRef ⟨3, 0⟩ "_id"] [.getOp topnDemoGet]]

def topnDemoResult : LOp :=
  .projection 7 [.colRef ⟨3, 0⟩ "_id"]
    [.getOp { topnDemoGet with
        bind := some { topnDemoBind with
          pipelineJson :=
            buildTopNPipelineJson topnDemoGet topnDemoBind .ascending 10 }
        namedPipeline :=
          some (buildTopNPipelineJson topnDemoGet topnDemoBind
            .ascending 10) }]

theorem rewriteMongoTopN_c7_witness :
    rewriteMongoTopN topnDemoPlan = some topnDemoResult ∧
    (∃ oexpr otype k child projs g bind idx,
      topnDemoPlan = LOp.topn [(some oexpr, otype)] k 0 [child] ∧ k ≠ 0 ∧
      collectProjChain child = (projs, LOp.getOp g) ∧
      ciEquals g.functionName "mongo_scan" = true ∧
      g.bind = some bind ∧
      resolveColumnRefToScanWithName oexpr projs bind g.tableIndex =
        some idx ∧
      (bind.columnNames.get? idx).any (fun n => ciEquals n "_id") = true ∧
      topnDemoResult = replaceScanBind
        { bind with pipelineJson := buildTopNPipelineJson g bind otype k }
        (buildTopNPipelineJson g bind otype k) child) :=
  ⟨rfl, rewriteMongoTopN_c7.1 topnDemoPlan topnDemoResult rfl⟩

end DuckMongo
